import Mathlib

/-!
# Verification of the traffic-assignment core (`assignment.py`)

This file gives a shallow embedding, in Lean 4, of the core of the static
traffic-assignment program: the heap-based shortest-path routine
(`DijkstraHeap`, `tracePreds`), all-or-nothing loading (`loadAON`), the BPR
cost-function family, the step-size logic of the link-based solver
(`assignment_loop`), and the path-based gradient-projection solver
(`path_based_gp_method`) with its step-direction and conjugate-coefficient
computations.

Modelling conventions:
* Python floats are modelled by exact rationals `ℚ`; `np.inf` by `⊤` in
  `WithTop ℚ`.  `math.pow` is kept as an explicit function parameter `pow`
  (the concrete networks below only exponentiate with natural exponents).
* Node identifiers are strings, as in the program (they are produced by
  `str(int(...))` at load time); the heap's tie-breaking comparison on
  `(label, node)` tuples therefore compares strings lexicographically,
  exactly as `heapq` does.
* The mutable `network.nodeSet[...].label/pred` fields become the explicit
  state `SPState`; mutable per-link `flow`/`cost` attributes become
  association lists keyed by the links of the network (`linkSet` keys).
* `while` loops become fuel-indexed recursions; theorems about a loop's
  result are stated for runs in which the loop has actually terminated
  (empty heap, respectively the convergence/iteration tests of the solver).
* `scipy.optimize.minimize` is opaque: its output is a parameter (an
  arbitrary rational), to which the program's own clamping is applied.
-/

attribute [local semireducible] Rat.add Rat.mul Rat.sub Rat.inv Rat.ofScientific

/-- Node identifiers (Python: `str(int(row["init_node"]))` and friends). -/
abbrev NodeId := String

/-- A link is keyed by its ordered pair of endpoint node ids
(Python: the keys of `network.linkSet`). -/
abbrev LinkId := NodeId × NodeId

/-- Labels of the shortest-path routine: `np.inf` is `⊤`. -/
abbrev Lbl := WithTop ℚ

/-- The static data of a `FlowTransportNetwork`: topology, per-link BPR
parameters, demand table and zone structure.  The mutable per-link
`flow`/`cost` state is kept separately by each solver model. -/
structure Network where
  nodes : List NodeId
  outLinks : NodeId → List NodeId
  linkKeys : List LinkId
  fft : LinkId → ℚ
  alphaParam : LinkId → ℚ
  betaParam : LinkId → ℚ
  capacity : LinkId → ℚ
  length : LinkId → ℚ
  speedLimit : LinkId → ℚ
  origins : List NodeId
  destList : NodeId → List NodeId
  demand : NodeId × NodeId → ℚ

/-- The per-node state mutated by `DijkstraHeap`: the `label` and `pred`
fields of the `Node` objects, plus the heap `SE`. -/
structure SPState where
  label : NodeId → Lbl
  pred : NodeId → Option NodeId
  queue : List (Lbl × NodeId)

/-- Strict lexicographic comparison of character lists (Python's string
comparison compares code points lexicographically). -/
def charListLt : List Char → List Char → Bool
  | [], [] => false
  | [], _ :: _ => true
  | _ :: _, [] => false
  | a :: as, b :: bs => if a < b then true else if b < a then false else charListLt as bs

/-- `a <= b` on node-id strings, by code points. -/
def strLe (a b : NodeId) : Bool := !charListLt b.data a.data

/-- `heapq` pops the least `(label, node)` tuple; ties on the label are
broken by the node-id string.  `le` on such pairs. -/
def entryLE (a b : Lbl × NodeId) : Bool :=
  decide (a.1 < b.1) || (decide (a.1 = b.1) && strLe a.2 b.2)

/-- The least entry of the heap (`heapq.heappop` returns the minimum). -/
def listMin : List (Lbl × NodeId) → Option (Lbl × NodeId)
  | [] => none
  | e :: rest =>
    match listMin rest with
    | none => some e
    | some m => some (if entryLE e m then e else m)

/-- Pop the minimum entry off the heap; the remaining entries are the heap
with one occurrence of the minimum removed.  (The list order of the
remaining entries is irrelevant: the model always extracts the minimum.) -/
def popMin (q : List (Lbl × NodeId)) : Option ((Lbl × NodeId) × List (Lbl × NodeId)) :=
  match listMin q with
  | none => none
  | some m => some (m, q.erase m)

/-- One relaxation of the link `(u, v)`, with `currentLabel` the label read
off the popped node `u` (read once, before the edge loop, as in the code):

```python
newLabel = currentLabel + network.linkSet[link].cost
if newLabel < existingLabel:
    heapq.heappush(SE, (newLabel, newNode))
    network.nodeSet[newNode].label = newLabel
    network.nodeSet[newNode].pred = newPred
``` -/
def relaxEdge (cost : LinkId → ℚ) (u : NodeId) (currentLabel : Lbl)
    (st : SPState) (v : NodeId) : SPState :=
  let newLabel := currentLabel + (cost (u, v) : ℚ)
  if newLabel < st.label v then
    { label := Function.update st.label v newLabel
      pred := Function.update st.pred v (some u)
      queue := (newLabel, v) :: st.queue }
  else st

/-- Process a popped node: relax all its outgoing links. -/
def processNode (outL : NodeId → List NodeId) (cost : LinkId → ℚ)
    (st : SPState) (u : NodeId) : SPState :=
  (outL u).foldl (relaxEdge cost u (st.label u)) st

/-- The `while SE:` loop of `DijkstraHeap`, with explicit fuel. -/
def dijkstraLoop (outL : NodeId → List NodeId) (cost : LinkId → ℚ) :
    ℕ → SPState → SPState
  | 0, st => st
  | fuel + 1, st =>
    match popMin st.queue with
    | none => st
    | some (e, rest) =>
      dijkstraLoop outL cost fuel (processNode outL cost { st with queue := rest } e.2)

/-- The initial state of `DijkstraHeap`: every label `np.inf` and every
predecessor `None`, except the origin (label `0.0`), and heap `[(0, origin)]`. -/
def dijkstraInit (origin : NodeId) : SPState :=
  { label := fun v => if v = origin then (0 : ℚ) else ⊤
    pred := fun _ => none
    queue := [((0 : ℚ), origin)] }

/-- `DijkstraHeap(origin, network)`: labels and predecessors after the heap
loop, starting from the freshly reset per-node state. -/
def DijkstraHeap (outL : NodeId → List NodeId) (cost : LinkId → ℚ)
    (origin : NodeId) (fuel : ℕ) : SPState :=
  dijkstraLoop outL cost fuel (dijkstraInit origin)

/-- `tracePreds(dest, network)`: walk the predecessor pointers from `dest`,
collecting the traversed links (in reverse order).  The `while` loop gets
explicit fuel. -/
def tracePreds (pred : NodeId → Option NodeId) : ℕ → NodeId → List LinkId
  | 0, _ => []
  | fuel + 1, dest =>
    match pred dest with
    | none => []
    | some p => (p, dest) :: tracePreds pred fuel p

/-- `RouteCost outL cost u v L k`: the link list `L` is a directed route from
`u` to `v` in the graph given by `outL`, and its total cost under `cost`
is `k`.  This is the specification-side notion of a path used to state
shortest-path optimality. -/
inductive RouteCost (outL : NodeId → List NodeId) (cost : LinkId → ℚ) :
    NodeId → NodeId → List LinkId → ℚ → Prop
  | nil (u : NodeId) : RouteCost outL cost u u [] 0
  | cons {u w v : NodeId} {L : List LinkId} {k : ℚ} :
      w ∈ outL u → RouteCost outL cost w v L k →
      RouteCost outL cost u v ((u, w) :: L) (cost (u, w) + k)

/-- A node is reachable when some route leads to it. -/
def Reachable (outL : NodeId → List NodeId) (cost : LinkId → ℚ)
    (u v : NodeId) : Prop :=
  ∃ L k, RouteCost outL cost u v L k

/-- `m` is the least cost of any route from `u` to `v` (with `⊤` meaning
that no route exists). -/
def IsMinCost (outL : NodeId → List NodeId) (cost : LinkId → ℚ)
    (u v : NodeId) (m : Lbl) : Prop :=
  (∀ L k, RouteCost outL cost u v L k → m ≤ (k : Lbl)) ∧
    (m = ⊤ ∨ ∃ L k, RouteCost outL cost u v L k ∧ m = (k : Lbl))

/-! ## Link-keyed maps

Per-link mutable attributes (`flow`, `cost`) and the dictionaries of the
solvers (`x_bar`, …) are association lists keyed by the links of the
network, mirroring Python dicts keyed by `linkSet` keys (iteration order =
insertion order). -/

/-- Association list from links to rationals. -/
abbrev LMap := List (LinkId × ℚ)

/-- Dictionary read.  (All reads performed by the program are of keys that
are present; the default only totalizes the function.) -/
def lget (m : LMap) (l : LinkId) : ℚ :=
  ((m.lookup l).getD 0)

/-- `m[l] += dem` on an association list (key set and order unchanged). -/
def xbarAdd (m : LMap) (l : LinkId) (dem : ℚ) : LMap :=
  m.map fun p => if p.1 = l then (p.1, p.2 + dem) else p

/-- `loadAON(network, computeXbar)`: for every origin run `DijkstraHeap`,
then for every destination of positive demand accumulate
`SPTT += label * demand` and (when `computeXbar` and the pair is not
self-referential) add the demand to every link returned by `tracePreds`.
Returns `(SPTT, x_bar)`. -/
def loadAON (net : Network) (cost : LinkId → ℚ) (spFuel tpFuel : ℕ)
    (computeXbar : Bool) : Lbl × LMap :=
  net.origins.foldl
    (fun acc r =>
      let st := DijkstraHeap net.outLinks cost r spFuel
      (net.destList r).foldl
        (fun acc2 d =>
          let dem := net.demand (r, d)
          if dem ≤ 0 then acc2
          else
            let sptt := acc2.1 + st.label d * ((dem : ℚ) : Lbl)
            let xb :=
              if computeXbar ∧ r ≠ d then
                (tracePreds st.pred tpFuel d).foldl (fun m l => xbarAdd m l dem) acc2.2
              else acc2.2
            (sptt, xb))
        acc)
    (((0 : ℚ) : Lbl), net.linkKeys.map fun l => (l, (0 : ℚ)))

/-! ## Rounding

`round(x, 9)` on Python floats: round half to even at the ninth decimal.
(The binary-float representation error of the Python original is outside
this exact-rational model.) -/

/-- Round to the nearest integer, ties to even. -/
def roundHalfEven (q : ℚ) : ℤ :=
  let f := ⌊q⌋
  let r := q - (f : ℚ)
  if r < 1 / 2 then f
  else if 1 / 2 < r then f + 1
  else if Even f then f else f + 1

/-- `round(q, 9)`. -/
def round9 (q : ℚ) : ℚ :=
  ((roundHalfEven (q * 10 ^ 9) : ℤ) : ℚ) / 10 ^ 9

/-- `round(·, 9)` extended to labels: `round(inf, 9) = inf`. -/
def round9L (x : Lbl) : Lbl :=
  WithTop.map round9 x

/-- The relative gap `TSTT / SPTT - 1`.  An infinite `SPTT` gives gap `-1`
(float: `finite / inf = 0`); the program never divides by a zero `SPTT`
on the networks considered here (Python would raise), and the rational
model maps that case to `-1` as well. -/
def gapQ (tstt : ℚ) (sptt : Lbl) : ℚ :=
  tstt / sptt.untop' 0 - 1

/-! ## Cost functions

`math.pow` on floats is kept as an explicit parameter `pow`; the concrete
networks of this file only use natural exponents, realized by `qpow`. -/

/-- `np.finfo(np.float32).max`, the sentinel cost of an effectively closed
link: `(2 - 2⁻²³) · 2¹²⁷`. -/
def float32max : ℚ := (2 ^ 24 - 1) * 2 ^ 104

/-- `BPRcostFunction`. -/
def BPRcostFunction (pow : ℚ → ℚ → ℚ) (optimal : Bool)
    (fft alpha flow capacity beta _length _maxSpeed : ℚ) : ℚ :=
  if capacity < 1 / 1000 then float32max
  else if optimal then fft * (1 + (alpha * pow (flow * 1 / capacity) beta) * (beta + 1))
  else fft * (1 + alpha * pow (flow * 1 / capacity) beta)

/-- `BPRcostFunctionDerivative` (note: the `optimal` flag is not consulted). -/
def BPRcostFunctionDerivative (pow : ℚ → ℚ → ℚ) (_optimal : Bool)
    (fft alpha flow capacity beta _length _maxSpeed : ℚ) : ℚ :=
  fft * alpha * beta * pow (flow * 1 / capacity) (beta - 1) / capacity

/-- `BPRcostFunctionIntegral` (note: the `optimal` flag is not consulted). -/
def BPRcostFunctionIntegral (pow : ℚ → ℚ → ℚ) (_optimal : Bool)
    (fft alpha flow capacity beta _length _maxSpeed : ℚ) : ℚ :=
  fft * (flow + alpha * flow * pow (flow * 1 / capacity) beta / (1 + beta))

/-- `math.pow` restricted to the nonnegative-integer exponents that occur in
the concrete networks of this file (`beta ∈ {1, 2}`, so exponents
`beta` and `beta - 1` are `0`, `1` or `2`; `math.pow(x, 0.0) = 1.0`). -/
def qpow (x y : ℚ) : ℚ := x ^ y.num.toNat

/-- The cost-function interface shared by all cost functions
(`optimal`, `fft`, `alpha`, `flow`, `capacity`, `beta`, `length`,
`maxSpeed`). -/
abbrev CostFn := Bool → ℚ → ℚ → ℚ → ℚ → ℚ → ℚ → ℚ → ℚ

/-- `updateTravelTime`: recompute every link's cost from its current flow. -/
def updateTravelTime (net : Network) (optimal : Bool) (cf : CostFn)
    (flow : LMap) : LMap :=
  net.linkKeys.map fun l =>
    (l, cf optimal (net.fft l) (net.alphaParam l) (lget flow l) (net.capacity l)
      (net.betaParam l) (net.length l) (net.speedLimit l))

/-! ## Step sizes of the link-based solver -/

def algMSA : String := "MSA"

def algFW : String := "FW"

def algCFW : String := "CFW"

/-- `findAlpha`: the output of the opaque one-dimensional minimization
(`sol.x[0]`, here the parameter `oracle`) clamped by
`max(0, min(1, ·))`. -/
def findAlpha (oracle : ℚ) : ℚ := max 0 (min 1 oracle)

/-- The integrand-sum objective minimized by `findAlpha`
(recorded for reference; the minimizer itself is opaque). -/
def findAlphaObjective (pow : ℚ → ℚ → ℚ) (net : Network) (optimal : Bool)
    (xbar flow : LMap) (a : ℚ) : ℚ :=
  (net.linkKeys.map fun l =>
    BPRcostFunctionIntegral pow optimal (net.fft l) (net.alphaParam l)
      (a * lget xbar l + (1 - a) * lget flow l) (net.capacity l)
      (net.betaParam l) (net.length l) (net.speedLimit l)).sum

/-- The step-size dispatch of `assignment_loop`:

```python
if algorithm == "MSA" or iteration_number == 1:
    alpha = (2 / (iteration_number + 1))
elif algorithm in ["FW", "CFW"]:
    alpha = findAlpha(...)
else:
    raise TypeError(...)
```

`none` models the `TypeError`. -/
def selectAlpha (algorithm : String) (iteration : ℕ) (oracle : ℚ) : Option ℚ :=
  if algorithm = algMSA ∨ iteration = 1 then some (2 / ((iteration : ℚ) + 1))
  else if algorithm = algFW ∨ algorithm = algCFW then some (findAlpha oracle)
  else none

/-- `calculate_conjugate_beta`: derivative-weighted inner products over all
links; a zero denominator yields `beta = 0`, otherwise the ratio is
clamped into `[0, 1 - 1e-9]`. -/
def linkDerivative (pow : ℚ → ℚ → ℚ) (net : Network) (flow : LMap)
    (optimal : Bool) (l : LinkId) : ℚ :=
  BPRcostFunctionDerivative pow optimal (net.fft l) (net.alphaParam l)
    (lget flow l) (net.capacity l) (net.betaParam l) (net.length l) (net.speedLimit l)

/-- The numerator of the CFW conjugation coefficient. -/
def conjugateBetaNum (pow : ℚ → ℚ → ℚ) (net : Network) (flow : LMap)
    (dFW dbar : LMap) (optimal : Bool) : ℚ :=
  (net.linkKeys.map fun l =>
    lget dbar l * lget dFW l * linkDerivative pow net flow optimal l).sum

/-- The denominator of the CFW conjugation coefficient. -/
def conjugateBetaDen (pow : ℚ → ℚ → ℚ) (net : Network) (flow : LMap)
    (dFW dbar : LMap) (optimal : Bool) : ℚ :=
  (net.linkKeys.map fun l =>
    lget dbar l * (lget dFW l - lget dbar l) * linkDerivative pow net flow optimal l).sum

def calculate_conjugate_beta (pow : ℚ → ℚ → ℚ) (net : Network) (flow : LMap)
    (dFW dbar : LMap) (optimal : Bool) : ℚ :=
  if conjugateBetaDen pow net flow dFW dbar optimal = 0 then 0
  else if conjugateBetaNum pow net flow dFW dbar optimal /
      conjugateBetaDen pow net flow dFW dbar optimal > 1 - 1 / 1000000000 then
    1 - 1 / 1000000000
  else if conjugateBetaNum pow net flow dFW dbar optimal /
      conjugateBetaDen pow net flow dFW dbar optimal < 0 then 0
  else
    conjugateBetaNum pow net flow dFW dbar optimal /
      conjugateBetaDen pow net flow dFW dbar optimal

/-! ## The link-based solver (`assignment_loop`)

The model records, next to the state, the list of network-level operations
performed, in order: this is what the error-handling claims are about. -/

/-- Network-level operations performed by the solvers. -/
inductive Effect
  | resetFlow
  | shortestPath (origin : NodeId)
  | blendFlows
  | updateCosts
  deriving DecidableEq

/-- State carried across iterations of `assignment_loop`: per-link flows and
costs, the iteration counter, and the previous step size and conjugate
direction (consulted by CFW from the second iteration on). -/
structure LBState where
  flow : LMap
  cost : LMap
  iter : ℕ
  alphaPrev : ℚ
  dCFW : LMap
  gap : Lbl
  deriving DecidableEq

/-- State after `network.reset_flow()`, before the first iteration
(`iteration_number = 1`, `gap = np.inf`; `alphaPrev`/`dCFW` hold dummy
values — the program leaves the corresponding Python locals unbound until
the first iteration assigns them, and they are not read before that). -/
def lbInit (net : Network) : LBState :=
  { flow := net.linkKeys.map fun l => (l, 0)
    cost := net.linkKeys.map fun l => (l, net.fft l)
    iter := 1
    alphaPrev := 0
    dCFW := net.linkKeys.map fun l => (l, 0)
    gap := ⊤ }

/-- The all-or-nothing auxiliary flow `x_bar` of one iteration. -/
def aonXbar (net : Network) (cost : LMap) (spFuel tpFuel : ℕ) : LMap :=
  (loadAON net (fun l => lget cost l) spFuel tpFuel true).2

/-- The Frank-Wolfe direction `d_FW = x_bar - flow`. -/
def cfwDFW (net : Network) (xbar0 flow : LMap) : LMap :=
  net.linkKeys.map fun l => (l, lget xbar0 l - lget flow l)

/-- The CFW conjugate-direction modification of `x_bar` (performed from the
second iteration on; the first iteration keeps `x_bar` and stores
`d_CFW = d_FW`).  Returns the `x_bar` to blend with and the `d_CFW` to
carry to the next iteration. -/
def cfwAdjust (pow : ℚ → ℚ → ℚ) (net : Network) (optimal : Bool)
    (st : LBState) (xbar0 : LMap) : LMap × LMap :=
  if st.iter = 1 then (xbar0, cfwDFW net xbar0 st.flow)
  else
    let dFW := cfwDFW net xbar0 st.flow
    let dbar := net.linkKeys.map fun l => (l, (1 - st.alphaPrev) * lget st.dCFW l)
    let beta := calculate_conjugate_beta pow net st.flow dFW dbar optimal
    let dCFW := net.linkKeys.map fun l =>
      (l, lget dFW l + beta * (lget dbar l - lget dFW l))
    (net.linkKeys.map fun l => (l, lget dCFW l + lget st.flow l), dCFW)

/-- The auxiliary flow actually blended, and the stored conjugate direction:
the CFW modification for algorithm "CFW", the plain `x_bar` (and the
previous `d_CFW`, untouched) otherwise. -/
def iterationXbar (pow : ℚ → ℚ → ℚ) (net : Network) (alg : String)
    (optimal : Bool) (st : LBState) (xbar0 : LMap) : LMap × LMap :=
  if alg = algCFW then cfwAdjust pow net optimal st xbar0 else (xbar0, st.dCFW)

/-- The flow improvement `flow ← alpha·x_bar + (1-alpha)·flow`. -/
def blendFlow (net : Network) (alpha : ℚ) (xbar flow : LMap) : LMap :=
  net.linkKeys.map fun l => (l, alpha * lget xbar l + (1 - alpha) * lget flow l)

/-- The state after one completed iteration of `assignment_loop` with step
size `alpha`: blended flows, updated costs, and the new gap
`TSTT/SPTT - 1` (both terms rounded to nine decimals). -/
def lbIterState (pow : ℚ → ℚ → ℚ) (net : Network) (alg : String)
    (optimal : Bool) (cf : CostFn) (spFuel tpFuel : ℕ) (alpha : ℚ)
    (st : LBState) : LBState :=
  let xbar := (iterationXbar pow net alg optimal st
    (aonXbar net st.cost spFuel tpFuel)).1
  let flow' := blendFlow net alpha xbar st.flow
  let cost' := updateTravelTime net optimal cf flow'
  { flow := flow'
    cost := cost'
    iter := st.iter + 1
    alphaPrev := alpha
    dCFW := (iterationXbar pow net alg optimal st
      (aonXbar net st.cost spFuel tpFuel)).2
    gap := ((gapQ
      (round9 ((net.linkKeys.map fun l => lget flow' l * lget cost' l).sum))
      (round9L (loadAON net (fun l => lget cost' l) spFuel tpFuel false).1) :
        ℚ) : Lbl) }

/-- One iteration of the `while gap > accuracy` body of `assignment_loop`:
all-or-nothing load, optional CFW conjugation, step-size selection
(`none` = the `TypeError` raise), flow blend, travel-time update and gap
computation.  The second component lists the operations performed before
the result (or the raise). -/
def linkIteration (pow : ℚ → ℚ → ℚ) (net : Network) (alg : String)
    (optimal : Bool) (cf : CostFn) (spFuel tpFuel : ℕ) (oracle : ℚ)
    (st : LBState) : Option LBState × List Effect :=
  match selectAlpha alg st.iter oracle with
  | none => (none, net.origins.map Effect.shortestPath)
  | some alpha =>
    (some (lbIterState pow net alg optimal cf spFuel tpFuel alpha st),
     net.origins.map Effect.shortestPath ++
       [Effect.blendFlows, Effect.updateCosts] ++
       net.origins.map Effect.shortestPath)

/-- `assignment_loop` up to the end of its first iteration: the flow reset,
then the first pass of the loop body (the entry test `gap > accuracy`
holds vacuously since `gap` starts at `np.inf`). -/
def assignmentLoopFirst (pow : ℚ → ℚ → ℚ) (net : Network) (alg : String)
    (optimal : Bool) (cf : CostFn) (spFuel tpFuel : ℕ) (oracle : ℚ) :
    Option LBState × List Effect :=
  let r := linkIteration pow net alg optimal cf spFuel tpFuel oracle (lbInit net)
  (r.1, Effect.resetFlow :: r.2)

/-- The algorithm dispatch of `computeAssingment`: which solver, if any, is
invoked for a given algorithm name.  An unrecognized name falls through
both branches (no solver runs; the function then crashes on its unbound
result variable after writing the results file). -/
inductive Dispatch
  | linkBased
  | pathBased
  | noSolver
  deriving DecidableEq

def algGP : String := "GP"

def algGPE : String := "GP-E"

/-- `computeAssingment`'s branch on the algorithm name. -/
def computeAssingmentDispatch (algorithm : String) : Dispatch :=
  if algorithm = algFW ∨ algorithm = algMSA ∨ algorithm = algCFW then .linkBased
  else if algorithm = algGP ∨ algorithm = algGPE then .pathBased
  else .noSolver

/-! ## The path-based solver (`path_based_gp_method`, algorithm "GP")

Route sets are per-OD lists of `RouteE` values; the Python `Route` objects
are mutable and aliased (`shortest_route` aliases either the fresh
shortest route or an in-set route), which the functional model reproduces
by tracking the index of the alias. -/

/-- A `Route` of the path-based solver. -/
structure RouteE where
  r : NodeId
  s : NodeId
  cost : Lbl
  links : List LinkId
  flow : ℚ
  deriving DecidableEq

/-- `Route()` fresh-object defaults (cost `np.inf`, no links, zero flow).
Also used to totalize dictionary reads that the program only performs
on present keys. -/
def dummyRoute : RouteE :=
  { r := "", s := "", cost := ⊤, links := [], flow := 0 }

/-- Route sets: association list from OD pairs to route lists. -/
abbrev RMap := List ((NodeId × NodeId) × List RouteE)

/-- Dynamic state of `path_based_gp_method`: per-link flow and cost, the
route sets, and the current gap. -/
structure GPState where
  flow : LMap
  cost : LMap
  routes : RMap
  gap : Lbl
  deriving DecidableEq

/-- `cal_shortest_routes`: one shortest route per OD pair of positive
demand, with cost the Dijkstra label of the destination and links from
`tracePreds`. -/
def cal_shortest_routes (net : Network) (cost : LinkId → ℚ)
    (spFuel tpFuel : ℕ) : List ((NodeId × NodeId) × RouteE) :=
  net.origins.foldl
    (fun acc r =>
      let st := DijkstraHeap net.outLinks cost r spFuel
      (net.destList r).foldl
        (fun acc2 d =>
          let dem := net.demand (r, d)
          if dem ≤ 0 then acc2
          else
            acc2 ++ [((r, d),
              { r := r, s := d, cost := st.label d
                links := if r ≠ d then tracePreds st.pred tpFuel d else []
                flow := 0 })])
        acc)
    []

/-- The Python `set(a) ^ set(b)`: the symmetric difference of two link lists, as a
duplicate-free list. -/
def linkSymmDiff (a b : List LinkId) : List LinkId :=
  ((a.filter fun l => l ∉ b) ++ (b.filter fun l => l ∉ a)).dedup

/-- `calculate_second_derivative`: the sum of `BPRcostFunctionDerivative`
(hard-coded, `optimal=False`) over the symmetric difference of the two
routes' link sets. -/
def calculate_second_derivative (pow : ℚ → ℚ → ℚ) (net : Network)
    (flow : LMap) (route shortest : RouteE) : ℚ :=
  ((linkSymmDiff route.links shortest.links).map fun l =>
    BPRcostFunctionDerivative pow false (net.fft l) (net.alphaParam l)
      (lget flow l) (net.capacity l) (net.betaParam l) (net.length l)
      (net.speedLimit l)).sum

/-- The step direction of one route against the current shortest route:
`np.inf` when the second-derivative sum `h` is zero, otherwise
`(route.cost - shortest.cost) / h`.  (Route costs are finite rationals
whenever the destination is reachable; `untop' 0` realizes that finite
case.) -/
def routeDirection (pow : ℚ → ℚ → ℚ) (net : Network) (flow : LMap)
    (route shortest : RouteE) : WithTop ℚ :=
  let h := calculate_second_derivative pow net flow route shortest
  if h = 0 then ⊤
  else (((route.cost.untop' 0 - shortest.cost.untop' 0) / h : ℚ) : WithTop ℚ)

/-- The inner loop of `obtain_step_direction` over one OD pair's route
list: a route whose link set equals the current shortest route's gets
direction `0` and replaces the local `shortest_route`; any other route
gets `routeDirection` against the current local `shortest_route`. -/
def stepDirsOfOD (pow : ℚ → ℚ → ℚ) (net : Network) (flow : LMap)
    (od : NodeId × NodeId) :
    RouteE → ℕ → List RouteE → List (((NodeId × NodeId) × ℕ) × WithTop ℚ)
  | _, _, [] => []
  | sr, i, route :: rest =>
    if linkSymmDiff route.links sr.links = [] then
      ((od, i), (0 : WithTop ℚ)) :: stepDirsOfOD pow net flow od route (i + 1) rest
    else
      ((od, i), routeDirection pow net flow route sr) ::
        stepDirsOfOD pow net flow od sr (i + 1) rest

/-- `obtain_step_direction`: the dictionary of step directions, keyed by
`(OD, route_idx)`.  (The comprehension that pre-fills the Python dict
writes only junk keys that are never read back; the entries read by the
solver are exactly the ones produced here.) -/
def obtain_step_direction (pow : ℚ → ℚ → ℚ) (net : Network) (flow : LMap)
    (routes : RMap) (shortest : List ((NodeId × NodeId) × RouteE)) :
    List (((NodeId × NodeId) × ℕ) × WithTop ℚ) :=
  routes.foldl
    (fun acc odr =>
      acc ++ stepDirsOfOD pow net flow odr.1
        ((shortest.lookup odr.1).getD dummyRoute) 0 odr.2)
    []

/-- One OD pair's flow shift (the iteration ≥ 2 body): routes with nonzero
step direction are shifted by `max(0, flow - alpha * direction)` (an
infinite direction floors the flow at `0`) and accumulated into
`flow_sum`; the last route with direction `0` — or, if none, the fresh
shortest route, which is then appended — absorbs
`demand - flow_sum`. -/
def gpShiftOD (alpha : ℚ) (sd : List (((NodeId × NodeId) × ℕ) × WithTop ℚ))
    (od : NodeId × NodeId) (dem : ℚ) (sr0 : RouteE) (rs : List RouteE) :
    List RouteE :=
  let p := rs.foldl
    (fun (acc : List RouteE × ℚ × Option ℕ × ℕ) route =>
      let i := acc.2.2.2
      let dir := (sd.lookup (od, i)).getD 0
      if dir = 0 then (acc.1 ++ [route], acc.2.1, some i, i + 1)
      else
        let f := if dir = ⊤ then 0 else max 0 (route.flow - alpha * dir.untop' 0)
        (acc.1 ++ [{ route with flow := f }], acc.2.1 + f, acc.2.2.1, i + 1))
    ([], 0, none, 0)
  let fs := p.2.1
  match p.2.2.1 with
  | some j => p.1.set j { p.1.getD j dummyRoute with flow := dem - fs }
  | none => p.1 ++ [{ sr0 with flow := dem - fs }]

/-- `update_network_flow`: reset all link flows to `0`, then add every
route's flow to each link it traverses. -/
def update_network_flow (net : Network) (routes : RMap) : LMap :=
  routes.foldl
    (fun m p => p.2.foldl
      (fun m2 rt => rt.links.foldl (fun m3 l => xbarAdd m3 l rt.flow) m2) m)
    (net.linkKeys.map fun l => (l, (0 : ℚ)))

/-- `update_routes_cost`: every route's cost becomes the sum of its links'
current costs. -/
def update_routes_cost (cost : LMap) (routes : RMap) : RMap :=
  routes.map fun p =>
    (p.1, p.2.map fun rt => { rt with cost := (((rt.links.map (lget cost)).sum : ℚ) : Lbl) })

/-- One full iteration of the `while gap > accuracy` body of
`path_based_gp_method` with algorithm "GP" (fixed step size): shortest
routes, route-set initialization (first iteration) or flow shift
(later iterations), link-flow recomputation, travel-time update, route
costs, and the gap.  ("GP-E" differs only in the step size, which an
opaque line search produces.) -/
def gpIterBody (pow : ℚ → ℚ → ℚ) (net : Network) (optimal : Bool)
    (cf : CostFn) (spFuel tpFuel : ℕ) (step_size : ℚ) (isFirst : Bool)
    (st : GPState) : GPState :=
  let srs := cal_shortest_routes net (fun l => lget st.cost l) spFuel tpFuel
  let routes' :=
    if isFirst then
      st.routes.map fun p =>
        match srs.lookup p.1 with
        | none => p
        | some rt => (p.1, p.2 ++ [{ rt with flow := net.demand (rt.r, rt.s) }])
    else
      let sd := obtain_step_direction pow net st.flow st.routes srs
      st.routes.map fun p =>
        (p.1, gpShiftOD step_size sd p.1 (net.demand p.1)
          ((srs.lookup p.1).getD dummyRoute) p.2)
  let flow' := update_network_flow net routes'
  let cost' := updateTravelTime net optimal cf flow'
  let routes'' := update_routes_cost cost' routes'
  let sptt := round9L (loadAON net (fun l => lget cost' l) spFuel tpFuel false).1
  let tstt := round9 ((net.linkKeys.map fun l => lget flow' l * lget cost' l).sum)
  { flow := flow', cost := cost', routes := routes'',
    gap := ((gapQ tstt sptt : ℚ) : Lbl) }

/-- State of `path_based_gp_method` after `network.reset_flow()` and the
route-set initialization, before the first iteration. -/
def gpInit (net : Network) : GPState :=
  { flow := net.linkKeys.map fun l => (l, 0)
    cost := net.linkKeys.map fun l => (l, net.fft l)
    routes := net.origins.foldl
      (fun acc r => acc ++ (net.destList r).map fun d => ((r, d), ([] : List RouteE)))
      []
    gap := ⊤ }

/-- The guarded loop step: run one more iteration when the entry test
`gap > accuracy` holds, otherwise the loop has exited. -/
def gpNext (pow : ℚ → ℚ → ℚ) (net : Network) (optimal : Bool) (cf : CostFn)
    (spFuel tpFuel : ℕ) (step_size accuracy : ℚ) (isFirst : Bool) :
    Option GPState → Option GPState
  | none => none
  | some st =>
    if (accuracy : Lbl) < st.gap then
      some (gpIterBody pow net optimal cf spFuel tpFuel step_size isFirst st)
    else none

/-- The state of `path_based_gp_method` after `n` completed iterations
(`none` once the `while` condition has failed; the iteration budget
`maxIter` of the program corresponds to the bound on `n`). -/
def gpRun (pow : ℚ → ℚ → ℚ) (net : Network) (optimal : Bool) (cf : CostFn)
    (spFuel tpFuel : ℕ) (step_size accuracy : ℚ) : ℕ → Option GPState
  | 0 => some (gpInit net)
  | n + 1 =>
    gpNext pow net optimal cf spFuel tpFuel step_size accuracy (n = 0)
      (gpRun pow net optimal cf spFuel tpFuel step_size accuracy n)

/-! ## A concrete network

A 7-node, 9-link network with two OD pairs used by the evaluation
theorems: OD `(1,4)` (demand 10) has two identical parallel two-link
routes `1→2→4`, `1→3→4` and a third route `1→5→4`; OD `(6,7)` (demand 8)
has the direct link `6→7` and the route `6→5→4→7`, which shares link
`(5,4)` with the third route of the first OD pair.  All links are BPR
with `alpha = 1`, `capacity = 10` and `beta = 1`. -/

/-- The links of the concrete network, in load order. -/
def exLinks : List LinkId :=
  [(("1"), ("2")), (("2"), ("4")), (("1"), ("3")), (("3"), ("4")),
   (("1"), ("5")), (("5"), ("4")), (("6"), ("5")), (("4"), ("7")),
   (("6"), ("7"))]

/-- Free-flow times of the concrete network. -/
def exFft (l : LinkId) : ℚ :=
  if l = (("1"), ("5")) then 17
  else if l = (("5"), ("4")) then 5
  else if l = (("6"), ("5")) then 5
  else if l = (("4"), ("7")) then 5
  else if l = (("6"), ("7")) then 26
  else 10

/-- The concrete network. -/
def exNet : Network :=
  { nodes := [("1"), ("2"), ("3"), ("4"), ("5"), ("6"), ("7")]
    outLinks := fun u =>
      if u = ("1") then [("2"), ("3"), ("5")]
      else if u = ("2") then [("4")]
      else if u = ("3") then [("4")]
      else if u = ("5") then [("4")]
      else if u = ("6") then [("5"), ("7")]
      else if u = ("4") then [("7")]
      else []
    linkKeys := exLinks
    fft := exFft
    alphaParam := fun _ => 1
    betaParam := fun _ => 1
    capacity := fun _ => 10
    length := fun _ => 1
    speedLimit := fun _ => 1
    origins := [("1"), ("6")]
    destList := fun r =>
      if r = ("1") then [("4")] else if r = ("6") then [("7")] else []
    demand := fun p =>
      if p = ((("1"), ("4"))) then 10 else if p = ((("6"), ("7"))) then 8 else 0 }

/-- The run of `path_based_gp_method` on the concrete network: algorithm
"GP", user equilibrium, BPR costs, `step_size = 1`,
`accuracy = 1e-9`. -/
def exRun (n : ℕ) : Option GPState :=
  gpRun qpow exNet false (BPRcostFunction qpow) 50 10 1 (1 / 1000000000) n
/-- The state of the concrete run after some iterations (generated). -/
def exSt1 : GPState :=
  { flow := [((("1"), ("2")), (10 : ℚ)),
   ((("2"), ("4")), (10 : ℚ)),
   ((("1"), ("3")), (0 : ℚ)),
   ((("3"), ("4")), (0 : ℚ)),
   ((("1"), ("5")), (0 : ℚ)),
   ((("5"), ("4")), (8 : ℚ)),
   ((("6"), ("5")), (8 : ℚ)),
   ((("4"), ("7")), (8 : ℚ)),
   ((("6"), ("7")), (0 : ℚ))]
    cost := [((("1"), ("2")), (20 : ℚ)),
   ((("2"), ("4")), (20 : ℚ)),
   ((("1"), ("3")), (10 : ℚ)),
   ((("3"), ("4")), (10 : ℚ)),
   ((("1"), ("5")), (17 : ℚ)),
   ((("5"), ("4")), (9 : ℚ)),
   ((("6"), ("5")), (9 : ℚ)),
   ((("4"), ("7")), (9 : ℚ)),
   ((("6"), ("7")), (26 : ℚ))]
    routes := [(((("1"), ("4"))), [⟨("1"), ("4"), (((40 : ℚ)) : Lbl), [(("2"), ("4")), (("1"), ("2"))], (10 : ℚ)⟩]),
   (((("6"), ("7"))), [⟨("6"), ("7"), (((27 : ℚ)) : Lbl), [(("4"), ("7")), (("5"), ("4")), (("6"), ("5"))], (8 : ℚ)⟩])]
    gap := (((26/51 : ℚ)) : Lbl) }

/-- The state of the concrete run after some iterations (generated). -/
def exSt2 : GPState :=
  { flow := [((("1"), ("2")), (5 : ℚ)),
   ((("2"), ("4")), (5 : ℚ)),
   ((("1"), ("3")), (5 : ℚ)),
   ((("3"), ("4")), (5 : ℚ)),
   ((("1"), ("5")), (0 : ℚ)),
   ((("5"), ("4")), (318/41 : ℚ)),
   ((("6"), ("5")), (318/41 : ℚ)),
   ((("4"), ("7")), (318/41 : ℚ)),
   ((("6"), ("7")), (10/41 : ℚ))]
    cost := [((("1"), ("2")), (15 : ℚ)),
   ((("2"), ("4")), (15 : ℚ)),
   ((("1"), ("3")), (15 : ℚ)),
   ((("3"), ("4")), (15 : ℚ)),
   ((("1"), ("5")), (17 : ℚ)),
   ((("5"), ("4")), (364/41 : ℚ)),
   ((("6"), ("5")), (364/41 : ℚ)),
   ((("4"), ("7")), (364/41 : ℚ)),
   ((("6"), ("7")), (1092/41 : ℚ))]
    routes := [(((("1"), ("4"))), [⟨("1"), ("4"), (((30 : ℚ)) : Lbl), [(("2"), ("4")), (("1"), ("2"))], (5 : ℚ)⟩,
      ⟨("1"), ("4"), (((30 : ℚ)) : Lbl), [(("3"), ("4")), (("1"), ("3"))], (5 : ℚ)⟩]),
   (((("6"), ("7"))), [⟨("6"), ("7"), (((1092/41 : ℚ)) : Lbl), [(("4"), ("7")), (("5"), ("4")), (("6"), ("5"))], (318/41 : ℚ)⟩,
      ⟨("6"), ("7"), (((1092/41 : ℚ)) : Lbl), [(("6"), ("7"))], (10/41 : ℚ)⟩])]
    gap := (((41219512195/471853658537 : ℚ)) : Lbl) }

/-- The state of the concrete run after some iterations (generated). -/
def exSt3 : GPState :=
  { flow := [((("1"), ("2")), (3460/861 : ℚ)),
   ((("2"), ("4")), (3460/861 : ℚ)),
   ((("1"), ("3")), (3460/861 : ℚ)),
   ((("3"), ("4")), (3460/861 : ℚ)),
   ((("1"), ("5")), (1690/861 : ℚ)),
   ((("5"), ("4")), (8368/861 : ℚ)),
   ((("6"), ("5")), (318/41 : ℚ)),
   ((("4"), ("7")), (318/41 : ℚ)),
   ((("6"), ("7")), (8 : ℚ))]
    cost := [((("1"), ("2")), (12070/861 : ℚ)),
   ((("2"), ("4")), (12070/861 : ℚ)),
   ((("1"), ("3")), (12070/861 : ℚ)),
   ((("3"), ("4")), (12070/861 : ℚ)),
   ((("1"), ("5")), (17510/861 : ℚ)),
   ((("5"), ("4")), (8489/861 : ℚ)),
   ((("6"), ("5")), (364/41 : ℚ)),
   ((("4"), ("7")), (364/41 : ℚ)),
   ((("6"), ("7")), (234/5 : ℚ))]
    routes := [(((("1"), ("4"))), [⟨("1"), ("4"), (((24140/861 : ℚ)) : Lbl), [(("2"), ("4")), (("1"), ("2"))], (3460/861 : ℚ)⟩,
      ⟨("1"), ("4"), (((24140/861 : ℚ)) : Lbl), [(("3"), ("4")), (("1"), ("3"))], (3460/861 : ℚ)⟩,
      ⟨("1"), ("4"), (((25999/861 : ℚ)) : Lbl), [(("5"), ("4")), (("1"), ("5"))], (1690/861 : ℚ)⟩]),
   (((("6"), ("7"))), [⟨("6"), ("7"), (((23777/861 : ℚ)) : Lbl), [(("4"), ("7")), (("5"), ("4")), (("6"), ("5"))], (318/41 : ℚ)⟩,
      ⟨("6"), ("7"), (((234/5 : ℚ)) : Lbl), [(("6"), ("7"))], (8 : ℚ)⟩])]
    gap := (((371902485428/501296167247 : ℚ)) : Lbl) }

/-- The state of the concrete run after some iterations (generated). -/
def exSt4 : GPState :=
  { flow := [((("1"), ("2")), (3460/861 : ℚ)),
   ((("2"), ("4")), (3460/861 : ℚ)),
   ((("1"), ("3")), (154615/18081 : ℚ)),
   ((("3"), ("4")), (154615/18081 : ℚ)),
   ((("1"), ("5")), (26195/18081 : ℚ)),
   ((("5"), ("4")), (4542733/741321 : ℚ)),
   ((("6"), ("5")), (165178/35301 : ℚ)),
   ((("4"), ("7")), (165178/35301 : ℚ)),
   ((("6"), ("7")), (117230/35301 : ℚ))]
    cost := [((("1"), ("2")), (12070/861 : ℚ)),
   ((("2"), ("4")), (12070/861 : ℚ)),
   ((("1"), ("3")), (335425/18081 : ℚ)),
   ((("3"), ("4")), (335425/18081 : ℚ)),
   ((("1"), ("5")), (703817/36162 : ℚ)),
   ((("5"), ("4")), (11955943/1482642 : ℚ)),
   ((("6"), ("5")), (259094/35301 : ℚ)),
   ((("4"), ("7")), (259094/35301 : ℚ)),
   ((("6"), ("7")), (1222624/35301 : ℚ))]
    routes := [(((("1"), ("4"))), [⟨("1"), ("4"), (((24140/861 : ℚ)) : Lbl), [(("2"), ("4")), (("1"), ("2"))], (3460/861 : ℚ)⟩,
      ⟨("1"), ("4"), (((670850/18081 : ℚ)) : Lbl), [(("3"), ("4")), (("1"), ("3"))], (154615/18081 : ℚ)⟩,
      ⟨("1"), ("4"), (((20406220/741321 : ℚ)) : Lbl), [(("5"), ("4")), (("1"), ("5"))], (26195/18081 : ℚ)⟩]),
   (((("6"), ("7"))), [⟨("6"), ("7"), (((33719839/1482642 : ℚ)) : Lbl), [(("4"), ("7")), (("5"), ("4")), (("6"), ("5"))], (165178/35301 : ℚ)⟩,
      ⟨("6"), ("7"), (((1222624/35301 : ℚ)) : Lbl), [(("6"), ("7"))], (117230/35301 : ℚ)⟩])]
    gap := (((234042438025/457212942841 : ℚ)) : Lbl) }

/-- The state of the concrete run after some iterations (generated). -/
def exSt5 : GPState :=
  { flow := [((("1"), ("2")), (60668660/15567741 : ℚ)),
   ((("2"), ("4")), (60668660/15567741 : ℚ)),
   ((("1"), ("3")), (4649065/741321 : ℚ)),
   ((("3"), ("4")), (4649065/741321 : ℚ)),
   ((("1"), ("5")), (-2621615/15567741 : ℚ)),
   ((("5"), ("4")), (115372828/15567741 : ℚ)),
   ((("6"), ("5")), (5618783/741321 : ℚ)),
   ((("4"), ("7")), (5618783/741321 : ℚ)),
   ((("6"), ("7")), (311785/741321 : ℚ))]
    cost := [((("1"), ("2")), (216346070/15567741 : ℚ)),
   ((("2"), ("4")), (216346070/15567741 : ℚ)),
   ((("1"), ("3")), (12062275/741321 : ℚ)),
   ((("3"), ("4")), (12062275/741321 : ℚ)),
   ((("1"), ("5")), (520389703/31135482 : ℚ)),
   ((("5"), ("4")), (135525119/15567741 : ℚ)),
   ((("6"), ("5")), (13031993/1482642 : ℚ)),
   ((("4"), ("7")), (13031993/1482642 : ℚ)),
   ((("6"), ("7")), (20084987/741321 : ℚ))]
    routes := [(((("1"), ("4"))), [⟨("1"), ("4"), (((432692140/15567741 : ℚ)) : Lbl), [(("2"), ("4")), (("1"), ("2"))], (60668660/15567741 : ℚ)⟩,
      ⟨("1"), ("4"), (((24124550/741321 : ℚ)) : Lbl), [(("3"), ("4")), (("1"), ("3"))], (4649065/741321 : ℚ)⟩,
      ⟨("1"), ("4"), (((791439941/31135482 : ℚ)) : Lbl), [(("5"), ("4")), (("1"), ("5"))], (-2621615/15567741 : ℚ)⟩]),
   (((("6"), ("7"))), [⟨("6"), ("7"), (((409196972/15567741 : ℚ)) : Lbl), [(("4"), ("7")), (("5"), ("4")), (("6"), ("5"))], (5618783/741321 : ℚ)⟩,
      ⟨("6"), ("7"), (((20084987/741321 : ℚ)) : Lbl), [(("6"), ("7"))], (311785/741321 : ℚ)⟩])]
    gap := (((54268613843/464471722712 : ℚ)) : Lbl) }


/-- Unrecognized-algorithm name used by the evaluation theorems. -/
def algBogus : String := "XYZ"

/-- The status of a run of `assignment_loop`: still iterating, aborted by the
`TypeError` of the step-size dispatch, or exited because the entry test
`gap > accuracy` failed. -/
inductive LBRun
  | running (st : LBState)
  | raised
  | finished (st : LBState)
  deriving DecidableEq

/-- One guarded pass of the `while gap > accuracy` loop of
`assignment_loop`, together with the operations it performs. -/
def assignmentLoopStep (pow : ℚ → ℚ → ℚ) (net : Network) (alg : String)
    (optimal : Bool) (cf : CostFn) (spFuel tpFuel : ℕ) (accuracy : ℚ)
    (oracle : ℚ) : LBRun → LBRun × List Effect
  | LBRun.running st =>
    if (accuracy : Lbl) < st.gap then
      match linkIteration pow net alg optimal cf spFuel tpFuel oracle st with
      | (none, eff) => (LBRun.raised, eff)
      | (some st2, eff) => (LBRun.running st2, eff)
    else (LBRun.finished st, [])
  | LBRun.raised => (LBRun.raised, [])
  | LBRun.finished st => (LBRun.finished st, [])

/-- `assignment_loop` after its flow reset and `n` guarded loop passes, with
the accumulated operation trace. -/
def assignmentLoopRun (pow : ℚ → ℚ → ℚ) (net : Network) (alg : String)
    (optimal : Bool) (cf : CostFn) (spFuel tpFuel : ℕ) (accuracy : ℚ)
    (oracles : ℕ → ℚ) : ℕ → LBRun × List Effect
  | 0 => (LBRun.running (lbInit net), [Effect.resetFlow])
  | n + 1 =>
    let p := assignmentLoopRun pow net alg optimal cf spFuel tpFuel accuracy oracles n
    let q := assignmentLoopStep pow net alg optimal cf spFuel tpFuel accuracy (oracles n) p.1
    (q.1, p.2 ++ q.2)

/-! ## Real-analysis model of the BPR family

For the calculus claims, the BPR functions are re-read over the real
numbers, with `math.pow` as the real power `Real.rpow` (the function the
C library computes for positive bases).  These definitions mirror
`BPRcostFunction`, `BPRcostFunctionDerivative` and
`BPRcostFunctionIntegral` verbatim. -/

noncomputable section

/-- `BPRcostFunction` over `ℝ`. -/
def BPRcostFunctionR (optimal : Bool)
    (fft alpha flow capacity beta _length _maxSpeed : ℝ) : ℝ :=
  if capacity < 1 / 1000 then (2 ^ 24 - 1) * 2 ^ 104
  else if optimal then
    fft * (1 + (alpha * (flow * 1 / capacity) ^ beta) * (beta + 1))
  else fft * (1 + alpha * (flow * 1 / capacity) ^ beta)

/-- `BPRcostFunctionDerivative` over `ℝ` (the `optimal` flag is not
consulted, as in the code). -/
def BPRcostFunctionDerivativeR (_optimal : Bool)
    (fft alpha flow capacity beta _length _maxSpeed : ℝ) : ℝ :=
  fft * alpha * beta * (flow * 1 / capacity) ^ (beta - 1) / capacity

/-- `BPRcostFunctionIntegral` over `ℝ` (the `optimal` flag is not
consulted, as in the code). -/
def BPRcostFunctionIntegralR (_optimal : Bool)
    (fft alpha flow capacity beta _length _maxSpeed : ℝ) : ℝ :=
  fft * (flow + alpha * flow * (flow * 1 / capacity) ^ beta / (1 + beta))

end

/-! ## Predecessor chains

Specification-side notions used to verify `DijkstraHeap` and
`tracePreds`: a node's predecessor pointers lead back to the origin. -/

/-- The predecessor pointers lead from `v` back to `origin`. -/
inductive PredReaches (pred : NodeId → Option NodeId) (origin : NodeId) :
    NodeId → Prop
  | refl : PredReaches pred origin origin
  | step {v u : NodeId} : pred v = some u → PredReaches pred origin u →
      PredReaches pred origin v

/-- The predecessor pointers lead from `v` back to `origin` in exactly `n`
steps. -/
inductive PredReachesN (pred : NodeId → Option NodeId) (origin : NodeId) :
    ℕ → NodeId → Prop
  | refl : PredReachesN pred origin 0 origin
  | step {n : ℕ} {v u : NodeId} : pred v = some u →
      PredReachesN pred origin n u → PredReachesN pred origin (n + 1) v

/-- The loop invariant of `DijkstraHeap` on the label/pred state: the
origin keeps label `0.0` and pred `None`; labels are non-negative; every
pred pointer is a graph edge along which the labels are consistent; nodes
with a pred pointer have a finite label; every finite label is realized
by an actual route from the origin; and the pred pointers of every
finitely labelled node lead back to the origin. -/
structure DijkCore (outL : NodeId → List NodeId) (cost : LinkId → ℚ)
    (origin : NodeId) (st : SPState) : Prop where
  labelOrigin : st.label origin = ((0 : ℚ) : Lbl)
  predOrigin : st.pred origin = none
  nonneg : ∀ v, ((0 : ℚ) : Lbl) ≤ st.label v
  predEdge : ∀ v u, st.pred v = some u → v ∈ outL u ∧
    st.label u + ((cost (u, v) : ℚ) : Lbl) ≤ st.label v
  predFin : ∀ v u, st.pred v = some u → st.label v ≠ ⊤
  reach : ∀ v, st.label v ≠ ⊤ →
    ∃ L k, RouteCost outL cost origin v L k ∧ st.label v = (k : Lbl)
  predReach : ∀ v, st.label v ≠ ⊤ → PredReaches st.pred origin v

/-- The frontier invariant of `DijkstraHeap`: every link is either already
relaxed or its tail still has an entry waiting in the heap. -/
def DijkFrontier (outL : NodeId → List NodeId) (cost : LinkId → ℚ)
    (st : SPState) : Prop :=
  ∀ u v, v ∈ outL u →
    st.label v ≤ st.label u + ((cost (u, v) : ℚ) : Lbl) ∨
      ∃ x, (x, u) ∈ st.queue

/-- The body of `loadAON`'s inner loop over the destinations of origin
`r` (definitionally equal to the lambda inside `loadAON`): skip
non-positive demand, otherwise accumulate `SPTT` and, when requested and
the pair is not self-referential, add the demand along the traced
shortest route. -/
def aonDestStep (net : Network) (cost : LinkId → ℚ) (spFuel tf : ℕ)
    (computeXbar : Bool) (r : NodeId) (acc2 : Lbl × LMap) (d : NodeId) :
    Lbl × LMap :=
  if net.demand (r, d) ≤ 0 then acc2
  else
    (acc2.1 + (DijkstraHeap net.outLinks cost r spFuel).label d *
        ((net.demand (r, d) : ℚ) : Lbl),
     if computeXbar ∧ r ≠ d then
       (tracePreds (DijkstraHeap net.outLinks cost r spFuel).pred tf d).foldl
         (fun m l => xbarAdd m l (net.demand (r, d))) acc2.2
     else acc2.2)

/-- The body of `loadAON`'s outer loop over the origins (definitionally
equal to the lambda inside `loadAON`). -/
def aonOriginStep (net : Network) (cost : LinkId → ℚ) (spFuel tf : ℕ)
    (computeXbar : Bool) (acc : Lbl × LMap) (r : NodeId) : Lbl × LMap :=
  (net.destList r).foldl (aonDestStep net cost spFuel tf computeXbar r) acc

set_option maxRecDepth 10000 in
theorem exRun_one : exRun 1 = some exSt1 := by
  have h : exRun 1 = gpNext qpow exNet false (BPRcostFunction qpow) 50 10 1
      (1 / 1000000000) true (some (gpInit exNet)) := rfl
  rw [h]; decide

set_option maxRecDepth 10000 in
theorem exRun_two : exRun 2 = some exSt2 := by
  have h : exRun 2 = gpNext qpow exNet false (BPRcostFunction qpow) 50 10 1
      (1 / 1000000000) false (exRun 1) := rfl
  rw [h, exRun_one]; decide

set_option maxRecDepth 10000 in
theorem exRun_three : exRun 3 = some exSt3 := by
  have h : exRun 3 = gpNext qpow exNet false (BPRcostFunction qpow) 50 10 1
      (1 / 1000000000) false (exRun 2) := rfl
  rw [h, exRun_two]; decide

set_option maxRecDepth 10000 in
theorem exRun_four : exRun 4 = some exSt4 := by
  have h : exRun 4 = gpNext qpow exNet false (BPRcostFunction qpow) 50 10 1
      (1 / 1000000000) false (exRun 3) := rfl
  rw [h, exRun_three]; decide

set_option maxRecDepth 10000 in
theorem exRun_five : exRun 5 = some exSt5 := by
  have h : exRun 5 = gpNext qpow exNet false (BPRcostFunction qpow) 50 10 1
      (1 / 1000000000) false (exRun 4) := rfl
  rw [h, exRun_four]; decide

/-- C6: the claim that at every iteration of the path-based solver each OD
pair's route flows sum to exactly its demand fails on the code: on the
concrete network `exNet` (algorithm "GP", `step_size = 1`,
`accuracy = 1e-9`), iteration 3 is reached (every earlier gap test
passes) and leaves the OD pair `(6,7)` with route flows summing to
`646/41 ≈ 15.76`, not its demand `8`: both routes of the pair obtained
step direction `0` (their costs were exactly equal), so each became the
local `shortest_route` alias, the flow sum skipped both, and the last
one absorbed the whole demand while the other kept its flow. -/
theorem gp_route_flow_conservation_fails :
    exRun 3 = some exSt3 ∧
    (((exSt3.routes.lookup ((("6"), ("7")))).getD []).map RouteE.flow).sum = 646 / 41 ∧
    exNet.demand ((("6"), ("7"))) = 8 ∧ ¬ ((646 : ℚ) / 41 = 8) :=
  ⟨exRun_three, by decide, by decide, by decide⟩

/-- C5: the claim that link flows stay nonnegative throughout fails on the
code: continuing the same run, iteration 5 (again genuinely reached)
assigns link `(1,5)` the flow `-2621615/15567741 < 0` — the in-set
shortest route absorbs `demand - flow_sum`, and after the conservation
break of iteration 4 the remaining routes carry more than the demand. -/
theorem gp_negative_link_flow_reached :
    exRun 5 = some exSt5 ∧ lget exSt5.flow ((("1"), ("5"))) < 0 :=
  ⟨exRun_five, by decide⟩

/-- C3: for every input with capacity at least the epsilon `1e-3`,
`BPRcostFunction` returns `fft · (1 + alpha · (flow/capacity)^beta)` when
the system-optimal flag is false and
`fft · (1 + alpha · (flow/capacity)^beta · (beta+1))` when it is true;
for capacity below the epsilon it returns the `np.float32` sentinel
(whose exact value is also identified), and the quotient
`flow/capacity` is then never formed. -/
theorem BPRcostFunction_formula (pow : ℚ → ℚ → ℚ)
    (fft alpha flow capacity beta length maxSpeed : ℚ) :
    (1 / 1000 ≤ capacity →
      BPRcostFunction pow false fft alpha flow capacity beta length maxSpeed =
        fft * (1 + alpha * pow (flow / capacity) beta)) ∧
    (1 / 1000 ≤ capacity →
      BPRcostFunction pow true fft alpha flow capacity beta length maxSpeed =
        fft * (1 + alpha * pow (flow / capacity) beta * (beta + 1))) ∧
    (∀ b : Bool, capacity < 1 / 1000 →
      BPRcostFunction pow b fft alpha flow capacity beta length maxSpeed = float32max) ∧
    float32max = 340282346638528859811704183484516925440 := by
  refine ⟨fun h => ?_, fun h => ?_, fun b h => ?_, by norm_num [float32max]⟩
  · rw [BPRcostFunction, if_neg (not_lt.mpr h)]
    simp only [Bool.false_eq_true, if_false, mul_one]
  · rw [BPRcostFunction, if_neg (not_lt.mpr h)]
    simp only [if_true, mul_one]
  · rw [BPRcostFunction, if_pos h]

/-- Witness for C3 at a concrete parameterization: capacity `100` is above
the epsilon and yields the BPR formula; capacity `1/2000` is below it and
yields the sentinel. -/
theorem BPRcostFunction_formula_witness :
    ((1 : ℚ) / 1000 ≤ 100 ∧
      BPRcostFunction qpow false 10 (15 / 100) 50 100 4 1 1 =
        10 * (1 + 15 / 100 * qpow (50 / 100) 4)) ∧
    ((1 : ℚ) / 2000 < 1 / 1000 ∧
      BPRcostFunction qpow true 10 (15 / 100) 50 (1 / 2000) 4 1 1 = float32max) :=
  ⟨⟨by norm_num,
    (BPRcostFunction_formula qpow 10 (15 / 100) 50 100 4 1 1).1 (by norm_num)⟩,
   ⟨by norm_num,
    (BPRcostFunction_formula qpow 10 (15 / 100) 50 (1 / 2000) 4 1 1).2.2.1 true
      (by norm_num)⟩⟩

/-- C7: the step size selected by the link-based solver lies in `[0,1]` in
every iteration (`iteration ≥ 1`, as the counter starts at `1`): for MSA
and for the first iteration of every algorithm it is
`2/(iteration + 1)`, and for FW and CFW beyond the first iteration it is
the opaque minimizer output clamped by `max(0, min(1, ·))`. -/
theorem link_step_size_in_unit_interval (alg : String) (k : ℕ) (oracle : ℚ)
    (hk : 1 ≤ k) :
    (∀ a, selectAlpha alg k oracle = some a → 0 ≤ a ∧ a ≤ 1) ∧
    ((alg = algMSA ∨ k = 1) →
      selectAlpha alg k oracle = some (2 / ((k : ℚ) + 1))) ∧
    ((alg = algFW ∨ alg = algCFW) → ¬(alg = algMSA ∨ k = 1) →
      selectAlpha alg k oracle = some (max 0 (min 1 oracle))) := by
  have hk1 : (1 : ℚ) ≤ (k : ℚ) := by exact_mod_cast hk
  have hkpos : (0 : ℚ) < (k : ℚ) + 1 := by linarith
  have hmsa : 0 ≤ 2 / ((k : ℚ) + 1) ∧ 2 / ((k : ℚ) + 1) ≤ 1 := by
    constructor
    · positivity
    · rw [div_le_one hkpos]; linarith
  refine ⟨fun a ha => ?_, fun h => ?_, fun h h2 => ?_⟩
  · rw [selectAlpha] at ha
    by_cases h1 : alg = algMSA ∨ k = 1
    · rw [if_pos h1] at ha
      cases ha
      exact hmsa
    · rw [if_neg h1] at ha
      by_cases h2 : alg = algFW ∨ alg = algCFW
      · rw [if_pos h2] at ha
        cases ha
        refine ⟨le_max_left 0 _, max_le (by norm_num) ?_⟩
        exact min_le_left 1 oracle
      · rw [if_neg h2] at ha
        cases ha
  · rw [selectAlpha, if_pos h]
  · rw [selectAlpha, if_neg h2, if_pos h, findAlpha]

/-- Witness for C7: MSA at iteration 2 selects `2/3`, which lies in
`[0,1]`. -/
theorem link_step_size_witness :
    (1 ≤ 2 ∧ selectAlpha algMSA 2 7 = some (2 / ((2 : ℚ) + 1))) ∧
    (0 ≤ (2 : ℚ) / 3 ∧ (2 : ℚ) / 3 ≤ 1) :=
  ⟨⟨by norm_num, (link_step_size_in_unit_interval algMSA 2 7 (by norm_num)).2.1
      (Or.inl rfl)⟩,
   (link_step_size_in_unit_interval algMSA 2 7 (by norm_num)).1 (2 / 3)
      (by decide)⟩

/-- C8: zero denominators never raise.  A zero CFW conjugation denominator
yields `beta = 0`, and the coefficient is in any case clamped into
`[0, 1 - 1e-9]`; a zero second-derivative sum `h` makes the
gradient-projection step direction `np.inf`.  Both computations are total
functions of their inputs. -/
theorem zero_denominator_fallbacks (pow : ℚ → ℚ → ℚ) (net : Network)
    (flow dFW dbar : LMap) (optimal : Bool) (route shortest : RouteE) :
    (conjugateBetaDen pow net flow dFW dbar optimal = 0 →
      calculate_conjugate_beta pow net flow dFW dbar optimal = 0) ∧
    (0 ≤ calculate_conjugate_beta pow net flow dFW dbar optimal ∧
      calculate_conjugate_beta pow net flow dFW dbar optimal ≤ 1 - 1 / 1000000000) ∧
    (calculate_second_derivative pow net flow route shortest = 0 →
      routeDirection pow net flow route shortest = ⊤) := by
  refine ⟨fun hden => ?_, ?_, fun hh => ?_⟩
  · unfold calculate_conjugate_beta
    rw [if_pos hden]
  · unfold calculate_conjugate_beta
    split_ifs with h1 h2 h3
    · norm_num
    · norm_num
    · norm_num
    · exact ⟨not_lt.mp h3, not_lt.mp h2⟩
  · unfold routeDirection
    rw [if_pos hh]

/-- Witness for C8: with all-zero direction vectors the denominator is zero
and `beta = 0`; a route identical to the shortest route has an empty
symmetric difference, hence `h = 0` and an infinite step direction. -/
theorem zero_denominator_fallbacks_witness :
    (conjugateBetaDen qpow exNet [] [] [] false = 0 ∧
      calculate_conjugate_beta qpow exNet [] [] [] false = 0 ∧
      0 ≤ calculate_conjugate_beta qpow exNet [] [] [] false ∧
      calculate_conjugate_beta qpow exNet [] [] [] false ≤ 1 - 1 / 1000000000) ∧
    (calculate_second_derivative qpow exNet [] dummyRoute dummyRoute = 0 ∧
      routeDirection qpow exNet [] dummyRoute dummyRoute = ⊤) := by
  have h := zero_denominator_fallbacks qpow exNet [] [] [] false dummyRoute dummyRoute
  exact ⟨⟨by decide, h.1 (by decide), h.2.1.1, h.2.1.2⟩,
    ⟨by decide, h.2.2 (by decide)⟩⟩

/-- In its first iteration (`iteration_number = 1`) the loop body of
`assignment_loop` never raises, whatever the algorithm name: the
first-iteration test of the step-size dispatch short-circuits the name
check. -/
theorem linkIteration_first (pow : ℚ → ℚ → ℚ) (net : Network) (alg : String)
    (optimal : Bool) (cf : CostFn) (spFuel tpFuel : ℕ) (oracle : ℚ)
    (st : LBState) (hit : st.iter = 1) :
    ∃ st2, linkIteration pow net alg optimal cf spFuel tpFuel oracle st =
        (some st2,
          net.origins.map Effect.shortestPath ++
            [Effect.blendFlows, Effect.updateCosts] ++
            net.origins.map Effect.shortestPath) ∧
      st2.iter = st.iter + 1 ∧
      st2.flow = blendFlow net (2 / ((st.iter : ℚ) + 1))
        (aonXbar net st.cost spFuel tpFuel) st.flow := by
  have hxbar : (iterationXbar pow net alg optimal st
      (aonXbar net st.cost spFuel tpFuel)).1 = aonXbar net st.cost spFuel tpFuel := by
    unfold iterationXbar cfwAdjust
    by_cases hc : alg = algCFW
    · rw [if_pos hc, if_pos hit]
    · rw [if_neg hc]
  refine ⟨lbIterState pow net alg optimal cf spFuel tpFuel
    (2 / ((st.iter : ℚ) + 1)) st, ?_, rfl, ?_⟩
  · unfold linkIteration
    rw [show selectAlpha alg st.iter oracle = some (2 / ((st.iter : ℚ) + 1)) from by
      rw [selectAlpha, if_pos (Or.inr hit)]]
  · show (blendFlow net (2 / ((st.iter : ℚ) + 1)) (iterationXbar pow net alg
      optimal st (aonXbar net st.cost spFuel tpFuel)).1 st.flow) = _
    rw [hxbar]

/-- Beyond the first iteration, an algorithm name other than MSA, FW, CFW
makes the loop body of `assignment_loop` raise `TypeError` — after its
all-or-nothing shortest-path pass. -/
theorem linkIteration_raises (pow : ℚ → ℚ → ℚ) (net : Network) (alg : String)
    (optimal : Bool) (cf : CostFn) (spFuel tpFuel : ℕ) (oracle : ℚ)
    (st : LBState) (hit : ¬ st.iter = 1)
    (h1 : ¬ alg = algMSA) (h2 : ¬ alg = algFW) (h3 : ¬ alg = algCFW) :
    linkIteration pow net alg optimal cf spFuel tpFuel oracle st =
      (none, net.origins.map Effect.shortestPath) := by
  unfold linkIteration
  rw [show selectAlpha alg st.iter oracle = none from by
    rw [selectAlpha, if_neg (not_or.mpr ⟨h1, hit⟩), if_neg (not_or.mpr ⟨h2, h3⟩)]]

/-- C9 (amended): for every unrecognized algorithm name, `assignment_loop`
does not abort before solving: its first iteration runs to completion —
performing the all-or-nothing shortest-path pass, the flow blend and the
cost update — because the first-iteration branch of the step-size
dispatch ignores the algorithm name; the `TypeError` can only be raised
at the second iteration's dispatch (or the loop exits on its entry test
if the first iteration already met the accuracy).  At the level of
`computeAssingment`, an unrecognized name selects no solver at all. -/
theorem bad_algorithm_not_aborted_before_solving (pow : ℚ → ℚ → ℚ)
    (net : Network) (alg : String) (optimal : Bool) (cf : CostFn)
    (spFuel tpFuel : ℕ) (accuracy : ℚ) (oracles : ℕ → ℚ)
    (h1 : ¬ alg = algMSA) (h2 : ¬ alg = algFW) (h3 : ¬ alg = algCFW)
    (h4 : ¬ alg = algGP) (h5 : ¬ alg = algGPE) :
    (∃ st, (assignmentLoopRun pow net alg optimal cf spFuel tpFuel accuracy
        oracles 1).1 = LBRun.running st ∧ st.iter = 2) ∧
    Effect.blendFlows ∈ (assignmentLoopRun pow net alg optimal cf spFuel tpFuel
      accuracy oracles 1).2 ∧
    Effect.updateCosts ∈ (assignmentLoopRun pow net alg optimal cf spFuel tpFuel
      accuracy oracles 1).2 ∧
    ((assignmentLoopRun pow net alg optimal cf spFuel tpFuel accuracy
        oracles 2).1 = LBRun.raised ∨
      ∃ st, (assignmentLoopRun pow net alg optimal cf spFuel tpFuel accuracy
        oracles 2).1 = LBRun.finished st) ∧
    computeAssingmentDispatch alg = Dispatch.noSolver := by
  obtain ⟨st1, hli, hiter, _⟩ := linkIteration_first pow net alg optimal cf
    spFuel tpFuel (oracles 0) (lbInit net) rfl
  have hstep0 : assignmentLoopStep pow net alg optimal cf spFuel tpFuel accuracy
      (oracles 0) (LBRun.running (lbInit net)) =
      (LBRun.running st1,
        net.origins.map Effect.shortestPath ++
          [Effect.blendFlows, Effect.updateCosts] ++
          net.origins.map Effect.shortestPath) := by
    simp only [assignmentLoopStep]
    rw [show (lbInit net).gap = (⊤ : Lbl) from rfl,
      if_pos (WithTop.coe_lt_top accuracy), hli]
  have hrun1 : assignmentLoopRun pow net alg optimal cf spFuel tpFuel accuracy
      oracles 1 =
      (LBRun.running st1,
        [Effect.resetFlow] ++
          (net.origins.map Effect.shortestPath ++
            [Effect.blendFlows, Effect.updateCosts] ++
            net.origins.map Effect.shortestPath)) := by
    have hrun1a : assignmentLoopRun pow net alg optimal cf spFuel tpFuel accuracy
        oracles 1 =
        ((assignmentLoopStep pow net alg optimal cf spFuel tpFuel accuracy
          (oracles 0) (LBRun.running (lbInit net))).1,
         [Effect.resetFlow] ++
          (assignmentLoopStep pow net alg optimal cf spFuel tpFuel accuracy
            (oracles 0) (LBRun.running (lbInit net))).2) := rfl
    rw [hrun1a, hstep0]
  refine ⟨⟨st1, by rw [hrun1], hiter⟩, ?_, ?_, ?_, ?_⟩
  · rw [hrun1]; simp
  · rw [hrun1]; simp
  · have hstep1 : ∀ r, (assignmentLoopStep pow net alg optimal cf spFuel tpFuel
        accuracy (oracles 1) (LBRun.running st1) = r) →
        r.1 = LBRun.raised ∨ ∃ st, r.1 = LBRun.finished st := by
      intro r hr
      simp only [assignmentLoopStep] at hr
      by_cases hgap : (accuracy : Lbl) < st1.gap
      · rw [if_pos hgap, linkIteration_raises pow net alg optimal cf spFuel
          tpFuel (oracles 1) st1 (by rw [hiter]; simp [lbInit]) h1 h2 h3] at hr
        exact Or.inl (by rw [← hr])
      · rw [if_neg hgap] at hr
        exact Or.inr ⟨st1, by rw [← hr]⟩
    have hrun2 : assignmentLoopRun pow net alg optimal cf spFuel tpFuel accuracy
        oracles 2 =
        ((assignmentLoopStep pow net alg optimal cf spFuel tpFuel accuracy
          (oracles 1) (assignmentLoopRun pow net alg optimal cf spFuel tpFuel
            accuracy oracles 1).1).1,
         (assignmentLoopRun pow net alg optimal cf spFuel tpFuel accuracy
           oracles 1).2 ++
          (assignmentLoopStep pow net alg optimal cf spFuel tpFuel accuracy
            (oracles 1) (assignmentLoopRun pow net alg optimal cf spFuel tpFuel
              accuracy oracles 1).1).2) := rfl
    rw [hrun2, hrun1]
    exact hstep1 (assignmentLoopStep pow net alg optimal cf spFuel tpFuel
      accuracy (oracles 1) (LBRun.running st1)) rfl
  · rw [computeAssingmentDispatch,
      if_neg (by rw [not_or, not_or]; exact ⟨h2, h1, h3⟩),
      if_neg (not_or.mpr ⟨h4, h5⟩)]

/-- C9 (counterexample to the claim as stated): with the unrecognized name
"XYZ" on the concrete network, the run raises (at the second iteration),
and by then the trace already contains shortest-path computations, a
flow blend and a cost update — contradicting "no shortest-path
computation, flow update, or cost update is performed on the network
before the failure is raised". -/
theorem bad_algorithm_solves_before_raising :
    (assignmentLoopRun qpow exNet algBogus false (BPRcostFunction qpow) 50 10
      (1 / 1000000000) (fun _ => 0) 2).1 = LBRun.raised ∧
    Effect.shortestPath ("1") ∈ (assignmentLoopRun qpow exNet algBogus false
      (BPRcostFunction qpow) 50 10 (1 / 1000000000) (fun _ => 0) 2).2 ∧
    Effect.blendFlows ∈ (assignmentLoopRun qpow exNet algBogus false
      (BPRcostFunction qpow) 50 10 (1 / 1000000000) (fun _ => 0) 2).2 ∧
    Effect.updateCosts ∈ (assignmentLoopRun qpow exNet algBogus false
      (BPRcostFunction qpow) 50 10 (1 / 1000000000) (fun _ => 0) 2).2 := by
  exact ⟨by decide, by decide, by decide, by decide⟩

/-- Witness for the amended C9 at the concrete network and name "XYZ". -/
theorem bad_algorithm_witness :
    (¬ algBogus = algMSA) ∧
    ((∃ st, (assignmentLoopRun qpow exNet algBogus false (BPRcostFunction qpow)
        50 10 (1 / 1000000000) (fun _ => 0) 1).1 = LBRun.running st ∧
        st.iter = 2) ∧
      Effect.blendFlows ∈ (assignmentLoopRun qpow exNet algBogus false
        (BPRcostFunction qpow) 50 10 (1 / 1000000000) (fun _ => 0) 1).2 ∧
      Effect.updateCosts ∈ (assignmentLoopRun qpow exNet algBogus false
        (BPRcostFunction qpow) 50 10 (1 / 1000000000) (fun _ => 0) 1).2 ∧
      ((assignmentLoopRun qpow exNet algBogus false (BPRcostFunction qpow) 50 10
          (1 / 1000000000) (fun _ => 0) 2).1 = LBRun.raised ∨
        ∃ st, (assignmentLoopRun qpow exNet algBogus false (BPRcostFunction qpow)
          50 10 (1 / 1000000000) (fun _ => 0) 2).1 = LBRun.finished st) ∧
      computeAssingmentDispatch algBogus = Dispatch.noSolver) :=
  ⟨by decide,
   bad_algorithm_not_aborted_before_solving qpow exNet algBogus false
     (BPRcostFunction qpow) 50 10 (1 / 1000000000) (fun _ => 0)
     (by decide) (by decide) (by decide) (by decide) (by decide)⟩

/-- Reading a per-link table built over the key list `ks`. -/
theorem lget_map_keys (ks : List LinkId) (f : LinkId → ℚ) (l : LinkId) :
    lget (ks.map fun k => (k, f k)) l = if l ∈ ks then f l else 0 := by
  induction ks with
  | nil => simp [lget]
  | cons k ks ih =>
    by_cases h : l = k
    · subst h
      simp [lget, List.lookup_cons]
    · simp only [List.map_cons, lget, List.lookup_cons, beq_false_of_ne h,
        List.mem_cons, h, false_or] at *
      exact ih

/-- C10: whichever of MSA, FW, CFW is selected, the first iteration of
`assignment_loop` uses step size `alpha = 2/(1+1) = 1`, so after the
first blend every link of the network carries exactly the all-or-nothing
auxiliary flow `x_bar` computed by that iteration (on the freshly reset
network). -/
theorem first_blend_equals_xbar (pow : ℚ → ℚ → ℚ) (net : Network)
    (alg : String) (optimal : Bool) (cf : CostFn) (spFuel tpFuel : ℕ)
    (oracle : ℚ)
    (_halg : alg = algMSA ∨ alg = algFW ∨ alg = algCFW) :
    ∃ st, (assignmentLoopFirst pow net alg optimal cf spFuel tpFuel oracle).1 =
        some st ∧
      ∀ l ∈ net.linkKeys, lget st.flow l =
        lget (loadAON net (fun l2 => lget (lbInit net).cost l2) spFuel tpFuel
          true).2 l := by
  obtain ⟨st1, hli, _, hflow⟩ := linkIteration_first pow net alg optimal cf
    spFuel tpFuel oracle (lbInit net) rfl
  refine ⟨st1, ?_, ?_⟩
  · show (linkIteration pow net alg optimal cf spFuel tpFuel oracle
      (lbInit net)).1 = some st1
    rw [hli]
  · intro l hl
    rw [hflow]
    unfold blendFlow
    rw [lget_map_keys, if_pos hl,
      show (lbInit net).flow = net.linkKeys.map (fun k => (k, (0 : ℚ))) from rfl,
      lget_map_keys, if_pos hl,
      show (lbInit net).iter = 1 from rfl,
      show aonXbar net (lbInit net).cost spFuel tpFuel =
        (loadAON net (fun l2 => lget (lbInit net).cost l2) spFuel tpFuel true).2
        from rfl]
    norm_num

/-- Witness for C10: the concrete network with algorithm MSA. -/
theorem first_blend_equals_xbar_witness :
    (algMSA = algMSA ∨ algMSA = algFW ∨ algMSA = algCFW) ∧
    ∃ st, (assignmentLoopFirst qpow exNet algMSA false (BPRcostFunction qpow)
        50 10 0).1 = some st ∧
      ∀ l ∈ exNet.linkKeys, lget st.flow l =
        lget (loadAON exNet (fun l2 => lget (lbInit exNet).cost l2) 50 10
          true).2 l :=
  ⟨Or.inl rfl, first_blend_equals_xbar qpow exNet algMSA false
    (BPRcostFunction qpow) 50 10 0 (Or.inl rfl)⟩

/-- C4 (counterexample to the claim as stated): with the system-optimal flag
set, `BPRcostFunctionDerivative` is not the derivative of
`BPRcostFunction` for that same flag.  At
`fft = alpha = beta = capacity = 1` the optimal-flag cost is
`x ↦ 1 + 2x`, whose derivative at `flow = 1` is `2`, while the provided
derivative evaluates to `1` (it ignores the flag). -/
theorem BPR_derivative_optimal_flag_counterexample :
    ¬ HasDerivAt (fun x => BPRcostFunctionR true 1 1 x 1 1 1 1)
      (BPRcostFunctionDerivativeR true 1 1 1 1 1 1 1) 1 := by
  intro h
  have hfun : (fun x => BPRcostFunctionR true 1 1 x 1 1 1 1) =
      fun x : ℝ => 1 + 2 * x := by
    funext x
    unfold BPRcostFunctionR
    rw [if_neg (by norm_num), if_pos rfl]
    rw [show x * 1 / 1 = x by ring, Real.rpow_one]
    ring
  have h2 : HasDerivAt (fun x => BPRcostFunctionR true 1 1 x 1 1 1 1) 2 1 := by
    rw [hfun]
    simpa using ((hasDerivAt_id (1 : ℝ)).const_mul 2).const_add 1
  have hval : BPRcostFunctionDerivativeR true 1 1 1 1 1 1 1 = 1 := by
    unfold BPRcostFunctionDerivativeR
    rw [show (1 : ℝ) * 1 / 1 = 1 by ring, show (1 : ℝ) - 1 = 0 by ring,
      Real.rpow_zero]
    ring
  have := h.unique h2
  rw [hval] at this
  norm_num at this

/-- C4 (amended): for capacity above the epsilon, positive flow and
`1 + beta ≠ 0`, `BPRcostFunctionDerivative` is the analytic derivative
with respect to flow of the cost for the NON-system-optimal flag, and
the derivative of `BPRcostFunctionIntegral` is that same non-optimal
cost — for both values of the flag, which the derivative and the
integral ignore.  (The claim as stated fails for the optimal flag, see
the counterexample.) -/
theorem BPR_derivative_integral_consistency (b : Bool)
    (fft alpha flow capacity beta length maxSpeed : ℝ)
    (hcap : 1 / 1000 ≤ capacity) (hflow : 0 < flow) (hbeta : 1 + beta ≠ 0) :
    HasDerivAt
      (fun x => BPRcostFunctionR false fft alpha x capacity beta length maxSpeed)
      (BPRcostFunctionDerivativeR b fft alpha flow capacity beta length maxSpeed)
      flow ∧
    HasDerivAt
      (fun x => BPRcostFunctionIntegralR b fft alpha x capacity beta length maxSpeed)
      (BPRcostFunctionR false fft alpha flow capacity beta length maxSpeed)
      flow := by
  have hcap0 : (0 : ℝ) < capacity := lt_of_lt_of_le (by norm_num) hcap
  have hx : (0 : ℝ) < flow / capacity := div_pos hflow hcap0
  have hfun : (fun x => BPRcostFunctionR false fft alpha x capacity beta
      length maxSpeed) = fun x : ℝ => fft * (1 + alpha * (x / capacity) ^ beta) := by
    funext x
    unfold BPRcostFunctionR
    rw [if_neg (not_lt.mpr hcap), if_neg (by simp), mul_one]
  have hpow : HasDerivAt (fun x : ℝ => (x / capacity) ^ beta)
      (beta * (flow / capacity) ^ (beta - 1) * (1 / capacity)) flow := by
    have h1 : HasDerivAt (fun x : ℝ => x / capacity) (1 / capacity) flow := by
      simpa using (hasDerivAt_id flow).div_const capacity
    have h2 : HasDerivAt (fun y : ℝ => y ^ beta)
        (beta * (flow / capacity) ^ (beta - 1)) (flow / capacity) :=
      Real.hasDerivAt_rpow_const (Or.inl (ne_of_gt hx))
    exact h2.comp flow h1
  have hcost : HasDerivAt (fun x => BPRcostFunctionR false fft alpha x capacity
      beta length maxSpeed)
      (fft * (alpha * (beta * (flow / capacity) ^ (beta - 1) * (1 / capacity))))
      flow := by
    rw [hfun]
    exact ((hpow.const_mul alpha).const_add 1).const_mul fft
  have hAB : (flow / capacity) ^ beta =
      (flow / capacity) ^ (beta - 1) * (flow / capacity) := by
    conv_lhs => rw [show beta = beta - 1 + 1 by ring]
    rw [Real.rpow_add hx, Real.rpow_one]
  constructor
  · have hderiv_eq : BPRcostFunctionDerivativeR b fft alpha flow capacity beta
        length maxSpeed =
        fft * (alpha * (beta * (flow / capacity) ^ (beta - 1) * (1 / capacity))) := by
      unfold BPRcostFunctionDerivativeR
      rw [mul_one]
      ring
    rw [hderiv_eq]
    exact hcost
  · have hifun : (fun x => BPRcostFunctionIntegralR b fft alpha x capacity beta
        length maxSpeed) =
        fun x : ℝ => fft * (x + alpha * (x * (x / capacity) ^ beta) / (1 + beta)) := by
      funext x
      unfold BPRcostFunctionIntegralR
      rw [mul_one]
      ring
    have hprod : HasDerivAt (fun x : ℝ => x * (x / capacity) ^ beta)
        (1 * (flow / capacity) ^ beta +
          flow * (beta * (flow / capacity) ^ (beta - 1) * (1 / capacity))) flow :=
      (hasDerivAt_id flow).mul hpow
    have hkey : 1 * (flow / capacity) ^ beta +
        flow * (beta * (flow / capacity) ^ (beta - 1) * (1 / capacity)) =
        (1 + beta) * (flow / capacity) ^ beta := by
      rw [hAB]
      field_simp
      ring
    have hfull : HasDerivAt (fun x : ℝ => fft *
        (x + alpha * (x * (x / capacity) ^ beta) / (1 + beta)))
        (fft * (1 + alpha * ((1 + beta) * (flow / capacity) ^ beta) / (1 + beta)))
        flow := by
      have h4 := ((hprod.const_mul alpha).div_const (1 + beta))
      have h5 := ((hasDerivAt_id flow).add h4).const_mul fft
      rw [hkey] at h5
      exact h5
    rw [hifun]
    have hval : fft * (1 + alpha * ((1 + beta) * (flow / capacity) ^ beta) /
        (1 + beta)) =
        BPRcostFunctionR false fft alpha flow capacity beta length maxSpeed := by
      rw [show BPRcostFunctionR false fft alpha flow capacity beta length
        maxSpeed = fft * (1 + alpha * (flow / capacity) ^ beta) from
        congrFun hfun flow]
      have : alpha * ((1 + beta) * (flow / capacity) ^ beta) / (1 + beta) =
          alpha * (flow / capacity) ^ beta := by
        field_simp
        ring
      rw [this]
    rw [← hval]
    exact hfull

/-- Witness for the amended C4 at `fft = 10`, `alpha = 0.15`, `beta = 4`,
`capacity = 100`, `flow = 50`. -/
theorem BPR_derivative_integral_consistency_witness :
    ((1 : ℝ) / 1000 ≤ 100 ∧ (0 : ℝ) < 50 ∧ (1 : ℝ) + 4 ≠ 0) ∧
    (HasDerivAt (fun x => BPRcostFunctionR false 10 (15 / 100) x 100 4 2 3)
      (BPRcostFunctionDerivativeR true 10 (15 / 100) 50 100 4 2 3) 50 ∧
    HasDerivAt (fun x => BPRcostFunctionIntegralR true 10 (15 / 100) x 100 4 2 3)
      (BPRcostFunctionR false 10 (15 / 100) 50 100 4 2 3) 50) :=
  ⟨⟨by norm_num, by norm_num, by norm_num⟩,
   BPR_derivative_integral_consistency true 10 (15 / 100) 50 100 4 2 3
     (by norm_num) (by norm_num) (by norm_num)⟩

/-! ## Correctness of `DijkstraHeap` and `tracePreds` (C1) -/

/-- A route extended by one more outgoing link is a route, with the link
cost added. -/
theorem RouteCost.append_link {outL : NodeId → List NodeId}
    {cost : LinkId → ℚ} {a b : NodeId} {L : List LinkId} {k : ℚ}
    (h : RouteCost outL cost a b L k) {v : NodeId} (hv : v ∈ outL b) :
    RouteCost outL cost a v (L ++ [(b, v)]) (k + cost (b, v)) := by
  induction h with
  | nil u =>
    have h0 : RouteCost outL cost u v [(u, v)] (cost (u, v) + 0) :=
      RouteCost.cons hv (RouteCost.nil v)
    simpa using h0
  | cons hw hrest ih =>
    have h1 := RouteCost.cons hw (ih hv)
    rw [← add_assoc] at h1
    simpa using h1

/-- Lower bound: any label assignment with all links relaxed bounds every
route cost from below, telescoping along the route. -/
theorem label_le_routeCost {outL : NodeId → List NodeId} {cost : LinkId → ℚ}
    (lab : NodeId → Lbl)
    (hrelax : ∀ u v, v ∈ outL u →
      lab v ≤ lab u + ((cost (u, v) : ℚ) : Lbl)) :
    ∀ {a b : NodeId} {L : List LinkId} {k : ℚ},
      RouteCost outL cost a b L k → lab b ≤ lab a + (k : Lbl) := by
  intro a b L k h
  induction h with
  | nil u => simp
  | cons hw hrest ih =>
    rename_i u w v L' k'
    calc lab v ≤ lab w + (k' : Lbl) := ih
    _ ≤ (lab u + ((cost (u, w) : ℚ) : Lbl)) + (k' : Lbl) :=
        add_le_add_right (hrelax u w hw) _
    _ = lab u + ((cost (u, w) + k' : ℚ) : Lbl) := by
        rw [add_assoc, WithTop.coe_add]

/-- `relaxEdge` written as an explicit conditional. -/
theorem relaxEdge_eq (cost : LinkId → ℚ) (u : NodeId) (L0 : Lbl)
    (st : SPState) (v : NodeId) :
    relaxEdge cost u L0 st v =
      if L0 + ((cost (u, v) : ℚ) : Lbl) < st.label v then
        { label := Function.update st.label v (L0 + ((cost (u, v) : ℚ) : Lbl))
          pred := Function.update st.pred v (some u)
          queue := (L0 + ((cost (u, v) : ℚ) : Lbl), v) :: st.queue }
      else st := rfl

/-- One edge relaxation preserves the core invariant, never touches the
tail's label, only lowers labels, only grows the heap, leaves the relaxed
edge relaxed, and pushes a heap entry for any node whose label changed. -/
theorem relaxEdge_core {outL : NodeId → List NodeId} {cost : LinkId → ℚ}
    {origin : NodeId}
    (hcost : ∀ u v, v ∈ outL u → 0 ≤ cost (u, v))
    {st : SPState} {u v : NodeId} {L0 : Lbl}
    (hc : DijkCore outL cost origin st) (hv : v ∈ outL u)
    (hL0 : st.label u = L0) :
    DijkCore outL cost origin (relaxEdge cost u L0 st v) ∧
    (relaxEdge cost u L0 st v).label u = st.label u ∧
    (∀ w, (relaxEdge cost u L0 st v).label w ≤ st.label w) ∧
    (∀ e ∈ st.queue, e ∈ (relaxEdge cost u L0 st v).queue) ∧
    (relaxEdge cost u L0 st v).label v ≤ L0 + ((cost (u, v) : ℚ) : Lbl) ∧
    (∀ w, (relaxEdge cost u L0 st v).label w = st.label w ∨
      ∃ x, (x, w) ∈ (relaxEdge cost u L0 st v).queue) := by
  rw [relaxEdge_eq]
  by_cases h : L0 + ((cost (u, v) : ℚ) : Lbl) < st.label v
  · rw [if_pos h]
    have hcnn : ((0 : ℚ) : Lbl) ≤ ((cost (u, v) : ℚ) : Lbl) := by
      exact_mod_cast hcost u v hv
    have hL0nn : ((0 : ℚ) : Lbl) ≤ L0 := hL0 ▸ hc.nonneg u
    have hLle : L0 ≤ L0 + ((cost (u, v) : ℚ) : Lbl) := by
      calc L0 = L0 + ((0 : ℚ) : Lbl) := by simp
      _ ≤ L0 + ((cost (u, v) : ℚ) : Lbl) := add_le_add_left hcnn _
    have hnewfin : L0 + ((cost (u, v) : ℚ) : Lbl) ≠ ⊤ := ne_top_of_lt h
    have hL0fin : L0 ≠ ⊤ := by
      intro htop
      rw [htop] at hnewfin
      exact hnewfin (by simp)
    have huv : u ≠ v := by
      intro he
      have hlab : st.label v = L0 := by rw [← he, hL0]
      rw [hlab] at h
      exact absurd h (not_lt.mpr hLle)
    have horig : v ≠ origin := by
      intro he
      have hlab : st.label v = ((0 : ℚ) : Lbl) := by rw [he, hc.labelOrigin]
      rw [hlab] at h
      have h0 : ((0 : ℚ) : Lbl) ≤ L0 + ((cost (u, v) : ℚ) : Lbl) := by
        calc ((0 : ℚ) : Lbl) ≤ L0 := hL0nn
        _ ≤ _ := hLle
      exact absurd h (not_lt.mpr h0)
    dsimp only
    refine ⟨?_, ?_, ?_, ?_, ?_, ?_⟩
    · -- the core invariant on the updated state
      have hpredv : Function.update st.pred v (some u) v = some u :=
        Function.update_same v (some u) st.pred
      have hlabv : Function.update st.label v (L0 + ((cost (u, v) : ℚ) : Lbl)) v =
          L0 + ((cost (u, v) : ℚ) : Lbl) :=
        Function.update_same v _ st.label
      -- pred chains survive the rewiring of v's pointer
      have hL1 : ∀ w, PredReaches st.pred origin w → st.label w ≤ L0 →
          PredReaches (Function.update st.pred v (some u)) origin w := by
        intro w hw
        induction hw with
        | refl => intro _; exact PredReaches.refl
        | step hp hrest ih =>
          rename_i v' u'
          intro hle
          have hedge := hc.predEdge v' u' hp
          have hcnn' : ((0 : ℚ) : Lbl) ≤ ((cost (u', v') : ℚ) : Lbl) := by
            exact_mod_cast hcost u' v' hedge.1
          have hu'le : st.label u' ≤ st.label v' := by
            calc st.label u' = st.label u' + ((0 : ℚ) : Lbl) := by simp
            _ ≤ st.label u' + ((cost (u', v') : ℚ) : Lbl) := add_le_add_left hcnn' _
            _ ≤ st.label v' := hedge.2
          have hvne : v' ≠ v := by
            intro he
            rw [he] at hle
            exact absurd (lt_of_lt_of_le h (le_trans hle hLle)) (lt_irrefl _)
          exact PredReaches.step
            (by rw [Function.update_noteq hvne]; exact hp)
            (ih (le_trans hu'le hle))
      have hufin : st.label u ≠ ⊤ := by rw [hL0]; exact hL0fin
      have hu2 : PredReaches (Function.update st.pred v (some u)) origin u :=
        hL1 u (hc.predReach u hufin) (le_of_eq hL0)
      have hv2 : PredReaches (Function.update st.pred v (some u)) origin v :=
        PredReaches.step hpredv hu2
      have hL2 : ∀ w, PredReaches st.pred origin w →
          PredReaches (Function.update st.pred v (some u)) origin w := by
        intro w hw
        induction hw with
        | refl => exact PredReaches.refl
        | step hp hrest ih =>
          rename_i v' u'
          by_cases hvv : v' = v
          · rw [hvv]; exact hv2
          · exact PredReaches.step
              (by rw [Function.update_noteq hvv]; exact hp) ih
      refine ⟨?_, ?_, ?_, ?_, ?_, ?_, ?_⟩
      · dsimp only
        rw [Function.update_noteq (Ne.symm horig)]
        exact hc.labelOrigin
      · dsimp only
        rw [Function.update_noteq (Ne.symm horig)]
        exact hc.predOrigin
      · dsimp only
        intro w
        by_cases hw : w = v
        · rw [hw, hlabv]
          calc ((0 : ℚ) : Lbl) ≤ L0 := hL0nn
          _ ≤ _ := hLle
        · rw [Function.update_noteq hw]
          exact hc.nonneg w
      · dsimp only
        intro w x hpx
        by_cases hw : w = v
        · rw [hw, hpredv] at hpx
          have hx : x = u := by injection hpx.symm
          subst hx
          refine ⟨hw ▸ hv, ?_⟩
          rw [hw, hlabv, Function.update_noteq huv, hL0]
        · rw [Function.update_noteq hw] at hpx
          have hedge := hc.predEdge w x hpx
          refine ⟨hedge.1, ?_⟩
          rw [Function.update_noteq hw]
          have hxle : Function.update st.label v
              (L0 + ((cost (u, v) : ℚ) : Lbl)) x ≤ st.label x := by
            by_cases hx : x = v
            · rw [hx, hlabv]
              exact le_of_lt (hx ▸ h)
            · rw [Function.update_noteq hx]
          calc Function.update st.label v (L0 + ((cost (u, v) : ℚ) : Lbl)) x +
              ((cost (x, w) : ℚ) : Lbl) ≤ st.label x + ((cost (x, w) : ℚ) : Lbl) :=
              add_le_add_right hxle _
          _ ≤ st.label w := hedge.2
      · dsimp only
        intro w x hpx
        by_cases hw : w = v
        · rw [hw, hlabv]
          exact hnewfin
        · rw [Function.update_noteq hw] at hpx
          rw [Function.update_noteq hw]
          exact hc.predFin w x hpx
      · dsimp only
        intro w hwfin
        by_cases hw : w = v
        · subst hw
          rw [hlabv]
          obtain ⟨L, k, hroute, hk⟩ := hc.reach u hufin
          refine ⟨L ++ [(u, w)], k + cost (u, w), hroute.append_link hv, ?_⟩
          rw [hL0] at hk
          rw [hk, WithTop.coe_add]
        · rw [Function.update_noteq hw] at hwfin ⊢
          exact hc.reach w hwfin
      · dsimp only
        intro w hwfin
        by_cases hw : w = v
        · rw [hw]; exact hv2
        · rw [Function.update_noteq hw] at hwfin
          exact hL2 w (hc.predReach w hwfin)
    · exact Function.update_noteq huv _ st.label
    · intro w
      by_cases hw : w = v
      · rw [hw, Function.update_same]
        exact le_of_lt h
      · rw [Function.update_noteq hw]
    · intro e he
      exact List.mem_cons_of_mem _ he
    · rw [Function.update_same]
    · intro w
      by_cases hw : w = v
      · exact Or.inr ⟨L0 + ((cost (u, v) : ℚ) : Lbl), by rw [hw]; exact List.mem_cons_self _ _⟩
      · exact Or.inl (Function.update_noteq hw _ st.label)
  · rw [if_neg h]
    exact ⟨hc, rfl, fun w => le_refl _, fun e he => he, not_lt.mp h,
      fun w => Or.inl rfl⟩

/-- Relaxing a list of outgoing links of `u` (as `processNode` does)
preserves the core invariant, keeps `u`'s label, only lowers labels, only
grows the heap, relaxes every processed link against the captured label
`L0`, and pushes a heap entry for any node whose label changed. -/
theorem foldRelax_core {outL : NodeId → List NodeId} {cost : LinkId → ℚ}
    {origin : NodeId}
    (hcost : ∀ u v, v ∈ outL u → 0 ≤ cost (u, v)) (u : NodeId) (L0 : Lbl) :
    ∀ (l : List NodeId) (st : SPState), (∀ v ∈ l, v ∈ outL u) →
      DijkCore outL cost origin st → st.label u = L0 →
      DijkCore outL cost origin (l.foldl (relaxEdge cost u L0) st) ∧
      (l.foldl (relaxEdge cost u L0) st).label u = L0 ∧
      (∀ w, (l.foldl (relaxEdge cost u L0) st).label w ≤ st.label w) ∧
      (∀ e ∈ st.queue, e ∈ (l.foldl (relaxEdge cost u L0) st).queue) ∧
      (∀ v ∈ l, (l.foldl (relaxEdge cost u L0) st).label v ≤
        L0 + ((cost (u, v) : ℚ) : Lbl)) ∧
      (∀ w, (l.foldl (relaxEdge cost u L0) st).label w = st.label w ∨
        ∃ x, (x, w) ∈ (l.foldl (relaxEdge cost u L0) st).queue) := by
  intro l
  induction l with
  | nil =>
    intro st _ hc hL0
    exact ⟨hc, hL0, fun w => le_refl _, fun e he => he,
      fun v hv => absurd hv (List.not_mem_nil v), fun w => Or.inl rfl⟩
  | cons v l ih =>
    intro st hmem hc hL0
    have hv : v ∈ outL u := hmem v (List.mem_cons_self v l)
    obtain ⟨hc1, hlabu1, hdec1, hq1, hrel1, hpush1⟩ :=
      relaxEdge_core hcost hc hv hL0
    have hL0' : (relaxEdge cost u L0 st v).label u = L0 := by rw [hlabu1, hL0]
    obtain ⟨hc2, hlabu2, hdec2, hq2, hrel2, hpush2⟩ :=
      ih (relaxEdge cost u L0 st v) (fun w hw => hmem w (List.mem_cons_of_mem v hw))
        hc1 hL0'
    rw [List.foldl_cons]
    refine ⟨hc2, hlabu2, ?_, ?_, ?_, ?_⟩
    · intro w
      exact le_trans (hdec2 w) (hdec1 w)
    · intro e he
      exact hq2 e (hq1 e he)
    · intro w hw
      rcases List.mem_cons.mp hw with hw | hw
      · subst hw
        exact le_trans (hdec2 w) hrel1
      · exact hrel2 w hw
    · intro w
      rcases hpush2 w with h2 | h2
      · rcases hpush1 w with h1 | h1
        · exact Or.inl (h2.trans h1)
        · obtain ⟨x, hx⟩ := h1
          exact Or.inr ⟨x, hq2 _ hx⟩
      · exact Or.inr h2

/-- The heap loop of `DijkstraHeap` preserves the core and frontier
invariants, whichever entry the heap pop selects. -/
theorem dijkstraLoop_core {outL : NodeId → List NodeId} {cost : LinkId → ℚ}
    {origin : NodeId}
    (hcost : ∀ u v, v ∈ outL u → 0 ≤ cost (u, v)) :
    ∀ (fuel : ℕ) (st : SPState),
      DijkCore outL cost origin st → DijkFrontier outL cost st →
      DijkCore outL cost origin (dijkstraLoop outL cost fuel st) ∧
      DijkFrontier outL cost (dijkstraLoop outL cost fuel st) := by
  intro fuel
  induction fuel with
  | zero => intro st hc hf; exact ⟨hc, hf⟩
  | succ fuel ih =>
    intro st hc hf
    rw [dijkstraLoop]
    cases hmin : listMin st.queue with
    | none =>
      have hpop : popMin st.queue = none := by rw [popMin, hmin]
      rw [hpop]
      exact ⟨hc, hf⟩
    | some m =>
      have hpop : popMin st.queue = some (m, st.queue.erase m) := by
        rw [popMin, hmin]
      rw [hpop]
      set st1 : SPState := { st with queue := st.queue.erase m } with hst1
      have hc1 : DijkCore outL cost origin st1 :=
        ⟨hc.labelOrigin, hc.predOrigin, hc.nonneg, hc.predEdge, hc.predFin,
          hc.reach, hc.predReach⟩
      have hL0 : st1.label m.2 = st.label m.2 := rfl
      obtain ⟨hc2, hlabu2, hdec2, hq2, hrel2, hpush2⟩ :=
        foldRelax_core hcost m.2 (st.label m.2) (outL m.2) st1
          (fun w hw => hw) hc1 hL0
      have hproc : processNode outL cost st1 m.2 =
          List.foldl (relaxEdge cost m.2 (st.label m.2)) st1 (outL m.2) := rfl
      rw [← hproc] at hc2 hlabu2 hdec2 hq2 hrel2 hpush2
    -- frontier is re-established for the popped node and kept for the rest
      have hf2 : DijkFrontier outL cost
          (processNode outL cost st1 m.2) := by
        intro a b hb
        by_cases ha : a = m.2
        · left
          rw [ha]
          calc (processNode outL cost st1 m.2).label b ≤
              st.label m.2 + ((cost (m.2, b) : ℚ) : Lbl) := hrel2 b (ha ▸ hb)
          _ = (processNode outL cost st1 m.2).label m.2 +
              ((cost (m.2, b) : ℚ) : Lbl) := by rw [hlabu2]
        · rcases hpush2 a with heq | hpush
          · rcases hf a b hb with hle | ⟨x, hx⟩
            · left
              calc (processNode outL cost st1 m.2).label b ≤ st1.label b :=
                  hdec2 b
              _ ≤ st.label a + ((cost (a, b) : ℚ) : Lbl) := hle
              _ = (processNode outL cost st1 m.2).label a +
                  ((cost (a, b) : ℚ) : Lbl) := by rw [heq]
            · right
              refine ⟨x, hq2 _ ?_⟩
              have hne : (x, a) ≠ m := by
                intro he
                exact ha (congrArg Prod.snd he)
              exact (List.mem_erase_of_ne hne).mpr hx
          · exact Or.inr hpush
      exact ih (processNode outL cost st1 m.2) hc2 hf2

/-- The initial state of `DijkstraHeap` satisfies both invariants. -/
theorem dijkstraInit_core {outL : NodeId → List NodeId} {cost : LinkId → ℚ}
    (origin : NodeId) :
    DijkCore outL cost origin (dijkstraInit origin) ∧
    DijkFrontier outL cost (dijkstraInit origin) := by
  constructor
  · refine ⟨?_, rfl, ?_, ?_, ?_, ?_, ?_⟩
    · simp [dijkstraInit]
    · intro v
      by_cases hv : v = origin <;> simp [dijkstraInit, hv]
    · intro v u h
      simp [dijkstraInit] at h
    · intro v u h
      simp [dijkstraInit] at h
    · intro v hv
      by_cases h : v = origin
      · subst h
        exact ⟨[], 0, RouteCost.nil v, by simp [dijkstraInit]⟩
      · exfalso
        apply hv
        simp [dijkstraInit, h]
    · intro v hv
      by_cases h : v = origin
      · subst h; exact PredReaches.refl
      · exfalso
        apply hv
        simp [dijkstraInit, h]
  · intro u v _
    by_cases h : u = origin
    · subst h
      exact Or.inr ⟨((0 : ℚ) : Lbl), by simp [dijkstraInit]⟩
    · left
      have : (dijkstraInit origin).label u = ⊤ := by simp [dijkstraInit, h]
      rw [this]
      simp

/-- After a fully terminated run of `DijkstraHeap` (the heap emptied
within the fuel), the core invariant holds and every link is relaxed. -/
theorem dijkstra_final {outL : NodeId → List NodeId} {cost : LinkId → ℚ}
    {origin : NodeId} {fuel : ℕ}
    (hcost : ∀ u v, v ∈ outL u → 0 ≤ cost (u, v))
    (hterm : (DijkstraHeap outL cost origin fuel).queue = []) :
    DijkCore outL cost origin (DijkstraHeap outL cost origin fuel) ∧
    ∀ u v, v ∈ outL u →
      (DijkstraHeap outL cost origin fuel).label v ≤
        (DijkstraHeap outL cost origin fuel).label u +
          ((cost (u, v) : ℚ) : Lbl) := by
  obtain ⟨hinit, hfinit⟩ := @dijkstraInit_core outL cost origin
  obtain ⟨hc, hf⟩ := dijkstraLoop_core hcost fuel (dijkstraInit origin) hinit hfinit
  refine ⟨hc, ?_⟩
  intro u v hv
  rcases hf u v hv with hle | ⟨x, hx⟩
  · exact hle
  · rw [DijkstraHeap] at hterm
    rw [hterm] at hx
    exact absurd hx (List.not_mem_nil _)

/-- Ungraded pred-chains have a length. -/
theorem PredReaches.toN {pred : NodeId → Option NodeId} {origin v : NodeId}
    (h : PredReaches pred origin v) :
    ∃ n, PredReachesN pred origin n v := by
  induction h with
  | refl => exact ⟨0, PredReachesN.refl⟩
  | step hp _ ih =>
    obtain ⟨n, hn⟩ := ih
    exact ⟨n + 1, PredReachesN.step hp hn⟩

/-- When the origin has no predecessor, the pointers are a function, so
the chain length from any node is unique. -/
theorem predReachesN_len_unique {pred : NodeId → Option NodeId}
    {origin : NodeId} (hor : pred origin = none) :
    ∀ {n m : ℕ} {v : NodeId}, PredReachesN pred origin n v →
      PredReachesN pred origin m v → n = m := by
  intro n m v h1
  induction h1 generalizing m with
  | refl =>
    intro h2
    cases h2 with
    | refl => rfl
    | step hp _ => rw [hor] at hp; exact absurd hp (by simp)
  | step hp h1' ih =>
    intro h2
    cases h2 with
    | refl => rw [hor] at hp; exact absurd hp (by simp)
    | step hp2 h2' =>
      have : _ = _ := hp.symm.trans hp2
      injection this with he
      rw [ih (he ▸ h2')]

/-- A node without a predecessor pointer traces to the empty link list. -/
theorem tracePreds_none {pred : NodeId → Option NodeId} {v : NodeId}
    (h : pred v = none) : ∀ m, tracePreds pred m v = [] := by
  intro m
  cases m with
  | zero => rfl
  | succ m => rw [tracePreds, h]

/-- Once the fuel covers the chain length, `tracePreds` is stable. -/
theorem tracePreds_stable {pred : NodeId → Option NodeId} {origin : NodeId}
    (hor : pred origin = none) :
    ∀ {n : ℕ} {v : NodeId}, PredReachesN pred origin n v →
      ∀ m, n ≤ m → tracePreds pred m v = tracePreds pred n v := by
  intro n v h
  induction h with
  | refl =>
    intro m _
    rw [tracePreds_none hor m, tracePreds_none hor 0]
  | step hp h' ih =>
    rename_i n' v' u'
    intro m hm
    obtain ⟨m', rfl⟩ := Nat.exists_eq_add_of_le hm
    have he : n' + 1 + m' = (n' + m') + 1 := by omega
    calc tracePreds pred (n' + 1 + m') v'
        = tracePreds pred ((n' + m') + 1) v' := by rw [he]
    _ = (u', v') :: tracePreds pred (n' + m') u' := by rw [tracePreds, hp]
    _ = (u', v') :: tracePreds pred n' u' := by
        rw [ih (n' + m') (Nat.le_add_right n' m')]
    _ = tracePreds pred (n' + 1) v' := by rw [tracePreds, hp]

/-- The reversed trace of a pred chain is a route from the origin whose
cost is the label, for any labelling that is exact along pred pointers. -/
theorem trace_routeCost {outL : NodeId → List NodeId} {cost : LinkId → ℚ}
    {pred : NodeId → Option NodeId} {origin : NodeId} (lab : NodeId → Lbl)
    (h0 : lab origin = ((0 : ℚ) : Lbl))
    (heq : ∀ v u, pred v = some u → v ∈ outL u ∧
      lab v = lab u + ((cost (u, v) : ℚ) : Lbl)) :
    ∀ {n : ℕ} {v : NodeId}, PredReachesN pred origin n v →
      ∃ k : ℚ, lab v = (k : Lbl) ∧
        RouteCost outL cost origin v ((tracePreds pred n v).reverse) k := by
  intro n v h
  induction h with
  | refl =>
    exact ⟨0, h0, RouteCost.nil origin⟩
  | step hp h' ih =>
    rename_i n' v' u'
    obtain ⟨k, hk, hroute⟩ := ih
    obtain ⟨hedge, hlab⟩ := heq v' u' hp
    refine ⟨k + cost (u', v'), ?_, ?_⟩
    · rw [hlab, hk, WithTop.coe_add]
    · rw [tracePreds, hp]
      rw [List.reverse_cons]
      exact hroute.append_link hedge

/-- Every node on a trace lies on a strictly shorter positive-length
chain to the origin. -/
theorem trace_mem_depth {pred : NodeId → Option NodeId} {origin : NodeId}
    (hor : pred origin = none) :
    ∀ (m : ℕ) (v : NodeId) (n : ℕ), PredReachesN pred origin n v →
      ∀ x ∈ (tracePreds pred m v).map Prod.snd,
        ∃ j, 1 ≤ j ∧ j ≤ n ∧ PredReachesN pred origin j x := by
  intro m
  induction m with
  | zero => intro v n _ x hx; simp [tracePreds] at hx
  | succ m ih =>
    intro v n hn x hx
    cases hp : pred v with
    | none => rw [tracePreds, hp] at hx; simp at hx
    | some u =>
      rw [tracePreds, hp] at hx
      cases hn with
      | refl => rw [hor] at hp; exact absurd hp (by simp)
      | step hp2 hn' =>
        rename_i n' u'
        have hu : u' = u := by
          have h12 : _ = _ := hp2.symm.trans hp
          injection h12
        subst hu
        rw [List.map_cons] at hx
        dsimp only at hx
        rcases List.mem_cons.mp hx with hxv | hxrest
        · exact ⟨n' + 1, Nat.succ_le_succ (Nat.zero_le n'), le_refl _,
            hxv ▸ PredReachesN.step hp2 hn'⟩
        · obtain ⟨j, h1, h2, h3⟩ := ih u' n' hn' x hxrest
          exact ⟨j, h1, Nat.le_succ_of_le h2, h3⟩

/-- The nodes collected along a trace are pairwise distinct. -/
theorem trace_snd_nodup {pred : NodeId → Option NodeId} {origin : NodeId}
    (hor : pred origin = none) :
    ∀ (m : ℕ) (v : NodeId) (n : ℕ), PredReachesN pred origin n v →
      ((tracePreds pred m v).map Prod.snd).Nodup := by
  intro m
  induction m with
  | zero => intro v n _; simp [tracePreds]
  | succ m ih =>
    intro v n hn
    cases hp : pred v with
    | none => rw [tracePreds, hp]; simp
    | some u =>
      rw [tracePreds, hp]
      cases hn with
      | refl => rw [hor] at hp; exact absurd hp (by simp)
      | step hp2 hn' =>
        rename_i n' u'
        have hu : u' = u := by
          have h12 : _ = _ := hp2.symm.trans hp
          injection h12
        subst hu
        rw [List.map_cons]
        dsimp only
        refine List.nodup_cons.mpr ⟨?_, ih u' n' hn'⟩
        intro hv
        obtain ⟨j, h1, h2, h3⟩ := trace_mem_depth hor m u' n' hn' v hv
        have : j = n' + 1 :=
          predReachesN_len_unique hor h3 (PredReachesN.step hp2 hn')
        rw [this] at h2
        exact absurd h2 (Nat.not_succ_le_self n')

/-- The links collected along a trace are pairwise distinct. -/
theorem trace_nodup {pred : NodeId → Option NodeId} {origin : NodeId}
    (hor : pred origin = none) (m : ℕ) (v : NodeId) (n : ℕ)
    (hn : PredReachesN pred origin n v) : (tracePreds pred m v).Nodup :=
  (trace_snd_nodup hor m v n hn).of_map

/-- Minimal route costs are unique. -/
theorem isMinCost_unique {outL : NodeId → List NodeId} {cost : LinkId → ℚ}
    {u v : NodeId} {m1 m2 : Lbl} (h1 : IsMinCost outL cost u v m1)
    (h2 : IsMinCost outL cost u v m2) : m1 = m2 := by
  have hle : ∀ {a b : Lbl}, IsMinCost outL cost u v a →
      IsMinCost outL cost u v b → a ≤ b := by
    intro a b ha hb
    rcases hb.2 with htop | ⟨L, k, hroute, hk⟩
    · rw [htop]; exact le_top
    · rw [hk]; exact ha.1 L k hroute
  exact le_antisymm (hle h1 h2) (hle h2 h1)

/-- After a terminated run, every label is the minimal route cost from
the origin. -/
theorem dijkstra_minCost {outL : NodeId → List NodeId} {cost : LinkId → ℚ}
    {origin : NodeId} {fuel : ℕ}
    (hcost : ∀ u v, v ∈ outL u → 0 ≤ cost (u, v))
    (hterm : (DijkstraHeap outL cost origin fuel).queue = []) :
    ∀ v, IsMinCost outL cost origin v
      ((DijkstraHeap outL cost origin fuel).label v) := by
  obtain ⟨hc, hrelax⟩ := dijkstra_final hcost hterm
  intro v
  constructor
  · intro L k hroute
    have hle := label_le_routeCost (DijkstraHeap outL cost origin fuel).label
      hrelax hroute
    rw [hc.labelOrigin] at hle
    simpa using hle
  · by_cases hfin : (DijkstraHeap outL cost origin fuel).label v = ⊤
    · exact Or.inl hfin
    · obtain ⟨L, k, hroute, hk⟩ := hc.reach v hfin
      exact Or.inr ⟨L, k, hroute, hk⟩

/-- After a terminated run, unreachable nodes keep label `np.inf` and
pred `None`. -/
theorem dijkstra_unreachable {outL : NodeId → List NodeId}
    {cost : LinkId → ℚ} {origin : NodeId} {fuel : ℕ}
    (hcost : ∀ u v, v ∈ outL u → 0 ≤ cost (u, v))
    (hterm : (DijkstraHeap outL cost origin fuel).queue = []) :
    ∀ v, ¬ Reachable outL cost origin v →
      (DijkstraHeap outL cost origin fuel).label v = ⊤ ∧
      (DijkstraHeap outL cost origin fuel).pred v = none := by
  obtain ⟨hc, _⟩ := dijkstra_final hcost hterm
  intro v hnr
  have hfin : (DijkstraHeap outL cost origin fuel).label v = ⊤ := by
    by_contra h
    obtain ⟨L, k, hroute, _⟩ := hc.reach v h
    exact hnr ⟨L, k, hroute⟩
  refine ⟨hfin, ?_⟩
  cases hp : (DijkstraHeap outL cost origin fuel).pred v with
  | none => rfl
  | some u => exact absurd hfin (hc.predFin v u hp)

/-- After a terminated run, for every reachable destination `tracePreds`
(with enough fuel) returns a stable, duplicate-free link list whose
reverse is a route from the origin of cost exactly the label. -/
theorem dijkstra_trace {outL : NodeId → List NodeId} {cost : LinkId → ℚ}
    {origin : NodeId} {fuel : ℕ}
    (hcost : ∀ u v, v ∈ outL u → 0 ≤ cost (u, v))
    (hterm : (DijkstraHeap outL cost origin fuel).queue = []) :
    ∀ d, Reachable outL cost origin d →
      ∃ (n : ℕ) (k : ℚ),
        (DijkstraHeap outL cost origin fuel).label d = (k : Lbl) ∧
        ∀ m, n ≤ m →
          (tracePreds (DijkstraHeap outL cost origin fuel).pred m d).Nodup ∧
          tracePreds (DijkstraHeap outL cost origin fuel).pred m d =
            tracePreds (DijkstraHeap outL cost origin fuel).pred n d ∧
          RouteCost outL cost origin d
            ((tracePreds (DijkstraHeap outL cost origin fuel).pred m d).reverse)
            k := by
  obtain ⟨hc, hrelax⟩ := dijkstra_final hcost hterm
  intro d hr
  obtain ⟨L, k0, hroute0⟩ := hr
  have hfin : (DijkstraHeap outL cost origin fuel).label d ≠ ⊤ := by
    have hle := label_le_routeCost (DijkstraHeap outL cost origin fuel).label
      hrelax hroute0
    rw [hc.labelOrigin] at hle
    intro htop
    rw [htop] at hle
    simp at hle
  obtain ⟨n, hn⟩ := (hc.predReach d hfin).toN
  have heq : ∀ y x, (DijkstraHeap outL cost origin fuel).pred y = some x →
      y ∈ outL x ∧ (DijkstraHeap outL cost origin fuel).label y =
        (DijkstraHeap outL cost origin fuel).label x +
          ((cost (x, y) : ℚ) : Lbl) := by
    intro y x hp
    obtain ⟨hedge, hge⟩ := hc.predEdge y x hp
    exact ⟨hedge, le_antisymm (hrelax x y hedge) hge⟩
  obtain ⟨k, hk, hroute⟩ :=
    trace_routeCost (DijkstraHeap outL cost origin fuel).label
      hc.labelOrigin heq hn
  refine ⟨n, k, hk, ?_⟩
  intro m hm
  have hst := tracePreds_stable hc.predOrigin hn m hm
  refine ⟨?_, hst, ?_⟩
  · rw [hst]
    exact trace_nodup hc.predOrigin n d n hn
  · rw [hst]
    exact hroute

/-- C1: for every network with non-negative link costs, once
`DijkstraHeap(origin, network)` terminates (the heap empties within the
fuel), every node's label is the minimal total cost of a directed route
from the origin under the current costs (so every reachable node's label
is its shortest-path cost), every unreachable node keeps label `np.inf`
and pred `None`, and for every reachable destination `tracePreds`
returns exactly the links of a minimal-cost route from the origin,
collected in reverse order (its predecessor pointer lying on that
route). -/
theorem dijkstra_tracePreds_correct (outL : NodeId → List NodeId)
    (cost : LinkId → ℚ) (origin : NodeId) (fuel : ℕ)
    (hcost : ∀ u v, v ∈ outL u → 0 ≤ cost (u, v))
    (hterm : (DijkstraHeap outL cost origin fuel).queue = []) :
    (∀ v, IsMinCost outL cost origin v
      ((DijkstraHeap outL cost origin fuel).label v)) ∧
    (∀ v, ¬ Reachable outL cost origin v →
      (DijkstraHeap outL cost origin fuel).label v = ⊤ ∧
      (DijkstraHeap outL cost origin fuel).pred v = none) ∧
    (∀ d, Reachable outL cost origin d →
      ∃ (n : ℕ) (k : ℚ),
        (DijkstraHeap outL cost origin fuel).label d = (k : Lbl) ∧
        ∀ m, n ≤ m →
          RouteCost outL cost origin d
            ((tracePreds (DijkstraHeap outL cost origin fuel).pred m d).reverse)
            k) := by
  refine ⟨dijkstra_minCost hcost hterm, dijkstra_unreachable hcost hterm, ?_⟩
  intro d hd
  obtain ⟨n, k, hk, hall⟩ := dijkstra_trace hcost hterm d hd
  exact ⟨n, k, hk, fun m hm => (hall m hm).2.2⟩

/-- Witness for C1 on the concrete seven-node network, origin `1`. -/
theorem dijkstra_tracePreds_correct_witness :
    ((∀ u v, v ∈ exNet.outLinks u → 0 ≤ exFft (u, v)) ∧
      (DijkstraHeap exNet.outLinks exFft ("1") 50).queue = []) ∧
    ((∀ v, IsMinCost exNet.outLinks exFft ("1") v
      ((DijkstraHeap exNet.outLinks exFft ("1") 50).label v)) ∧
    (∀ v, ¬ Reachable exNet.outLinks exFft ("1") v →
      (DijkstraHeap exNet.outLinks exFft ("1") 50).label v = ⊤ ∧
      (DijkstraHeap exNet.outLinks exFft ("1") 50).pred v = none) ∧
    (∀ d, Reachable exNet.outLinks exFft ("1") d →
      ∃ (n : ℕ) (k : ℚ),
        (DijkstraHeap exNet.outLinks exFft ("1") 50).label d = (k : Lbl) ∧
        ∀ m, n ≤ m →
          RouteCost exNet.outLinks exFft ("1") d
            ((tracePreds (DijkstraHeap exNet.outLinks exFft ("1") 50).pred
              m d).reverse) k)) := by
  have h1 : ∀ u v, v ∈ exNet.outLinks u → 0 ≤ exFft (u, v) := by
    intro u v _
    unfold exFft
    split_ifs <;> norm_num
  have h2 : (DijkstraHeap exNet.outLinks exFft ("1") 50).queue = [] := by
    decide
  exact ⟨⟨h1, h2⟩, dijkstra_tracePreds_correct exNet.outLinks exFft ("1") 50 h1 h2⟩

/-! ## Characterization of `loadAON` (C2) -/

/-- `loadAON` is the fold of the structured step functions. -/
theorem loadAON_eq (net : Network) (cost : LinkId → ℚ) (spFuel tf : ℕ)
    (computeXbar : Bool) :
    loadAON net cost spFuel tf computeXbar =
      net.origins.foldl (aonOriginStep net cost spFuel tf computeXbar)
        (((0 : ℚ) : Lbl), net.linkKeys.map fun l => (l, (0 : ℚ))) := rfl

/-- `x_bar[l] += dem` keeps the key list. -/
theorem xbarAdd_keys (m : LMap) (l : LinkId) (dem : ℚ) :
    (xbarAdd m l dem).map Prod.fst = m.map Prod.fst := by
  unfold xbarAdd
  rw [List.map_map]
  apply List.map_congr_left
  intro p _
  by_cases h : p.1 = l <;> simp [h]


/-- Reading an absent key yields the default `0`. -/
theorem lget_not_mem : ∀ {m : LMap} {l : LinkId}, l ∉ m.map Prod.fst →
    lget m l = 0 := by
  intro m
  induction m with
  | nil => intro l _; rfl
  | cons p m ih =>
    intro l h
    obtain ⟨k, v⟩ := p
    rw [List.map_cons, List.mem_cons] at h
    push_neg at h
    unfold lget
    rw [List.lookup_cons, beq_false_of_ne h.1]
    exact ih h.2

/-- `x_bar[l] += dem` on a cons cell. -/
theorem xbarAdd_cons (k : LinkId) (v : ℚ) (m : LMap) (l : LinkId) (dem : ℚ) :
    xbarAdd ((k, v) :: m) l dem =
      (if k = l then (k, v + dem) else (k, v)) :: xbarAdd m l dem := rfl

/-- Dictionary read on a cons cell. -/
theorem lget_cons (k : LinkId) (v : ℚ) (m : LMap) (l : LinkId) :
    lget ((k, v) :: m) l = if l = k then v else lget m l := by
  unfold lget
  rw [List.lookup_cons]
  by_cases h : l = k
  · simp [h]
  · simp [beq_false_of_ne h, h]

/-- Reading another key through `x_bar[l] += dem`. -/
theorem lget_xbarAdd_ne {m : LMap} {l l' : LinkId} {dem : ℚ}
    (h : l' ≠ l) : lget (xbarAdd m l dem) l' = lget m l' := by
  induction m with
  | nil => rfl
  | cons p m ih =>
    obtain ⟨k, v⟩ := p
    rw [xbarAdd_cons]
    by_cases hk : k = l
    · subst hk
      rw [if_pos rfl, lget_cons, lget_cons, if_neg h, if_neg h]
      exact ih
    · rw [if_neg hk, lget_cons, lget_cons]
      by_cases hlk : l' = k
      · rw [if_pos hlk, if_pos hlk]
      · rw [if_neg hlk, if_neg hlk]
        exact ih

/-- Reading the bumped key through `x_bar[l] += dem` when it is present. -/
theorem lget_xbarAdd_self {m : LMap} {l : LinkId} {dem : ℚ}
    (h : l ∈ m.map Prod.fst) :
    lget (xbarAdd m l dem) l = lget m l + dem := by
  induction m with
  | nil => simp at h
  | cons p m ih =>
    obtain ⟨k, v⟩ := p
    rw [List.map_cons] at h
    rw [xbarAdd_cons]
    by_cases hk : k = l
    · subst hk
      rw [if_pos rfl, lget_cons, lget_cons, if_pos rfl, if_pos rfl]
    · rw [if_neg hk, lget_cons, lget_cons, if_neg (fun he => hk he.symm),
        if_neg (fun he => hk he.symm)]
      rcases List.mem_cons.mp h with he | hm
      · exact absurd he.symm hk
      · exact ih hm

/-- Adding a demand along a link list keeps the key list. -/
theorem foldl_xbarAdd_keys (dem : ℚ) :
    ∀ (L : List LinkId) (m : LMap),
      (L.foldl (fun m2 l => xbarAdd m2 l dem) m).map Prod.fst =
        m.map Prod.fst := by
  intro L
  induction L with
  | nil => intro m; rfl
  | cons x L ih =>
    intro m
    rw [List.foldl_cons, ih, xbarAdd_keys]

/-- A key off the link list is unchanged by the fold. -/
theorem lget_foldl_xbarAdd_not_mem {dem : ℚ} {l : LinkId} :
    ∀ {L : List LinkId} (m : LMap), l ∉ L →
      lget (L.foldl (fun m2 x => xbarAdd m2 x dem) m) l = lget m l := by
  intro L
  induction L with
  | nil => intro m _; rfl
  | cons x L ih =>
    intro m h
    rw [List.mem_cons] at h
    push_neg at h
    rw [List.foldl_cons, ih _ h.2, lget_xbarAdd_ne h.1]

/-- Adding a demand along a duplicate-free link list adds it exactly once
to every present key on the list and leaves other keys unchanged. -/
theorem lget_foldl_xbarAdd {dem : ℚ} {l : LinkId} :
    ∀ {L : List LinkId} (m : LMap), L.Nodup → l ∈ m.map Prod.fst →
      lget (L.foldl (fun m2 x => xbarAdd m2 x dem) m) l =
        lget m l + (if l ∈ L then dem else 0) := by
  intro L
  induction L with
  | nil => intro m _ _; simp
  | cons x L ih =>
    intro m hnd hmem
    rw [List.foldl_cons]
    by_cases hlx : l = x
    · subst hlx
      have hnotin : l ∉ L := (List.nodup_cons.mp hnd).1
      rw [lget_foldl_xbarAdd_not_mem _ hnotin, lget_xbarAdd_self hmem,
        if_pos (List.mem_cons_self l L)]
    · have hmem' : l ∈ (xbarAdd m x dem).map Prod.fst := by
        rw [xbarAdd_keys]; exact hmem
      rw [ih _ (List.nodup_cons.mp hnd).2 hmem', lget_xbarAdd_ne hlx]
      by_cases hL : l ∈ L
      · rw [if_pos hL, if_pos (List.mem_cons_of_mem x hL)]
      · rw [if_neg hL,
          if_neg (fun hc => hL ((List.mem_cons.mp hc).resolve_left hlx))]

/-- The `SPTT` component of the loop over the destinations of one
origin: starting value plus the sum of label times demand over the
positive-demand destinations. -/
theorem aonDest_fold_fst (net : Network) (cost : LinkId → ℚ)
    (spFuel tf : ℕ) (cx : Bool) (r : NodeId) :
    ∀ (ds : List NodeId) (acc : Lbl × LMap),
      (ds.foldl (aonDestStep net cost spFuel tf cx r) acc).1 =
        acc.1 + (ds.map fun d =>
          if 0 < net.demand (r, d) then
            (DijkstraHeap net.outLinks cost r spFuel).label d *
              ((net.demand (r, d) : ℚ) : Lbl)
          else 0).sum := by
  intro ds
  induction ds with
  | nil => intro acc; simp
  | cons d ds ih =>
    intro acc
    rw [List.foldl_cons, ih, List.map_cons, List.sum_cons]
    by_cases h : net.demand (r, d) ≤ 0
    · rw [if_neg (not_lt.mpr h)]
      have hstep : aonDestStep net cost spFuel tf cx r acc d = acc := by
        unfold aonDestStep
        rw [if_pos h]
      rw [hstep, zero_add]
    · rw [if_pos (lt_of_not_le h)]
      have hstep : (aonDestStep net cost spFuel tf cx r acc d).1 =
          acc.1 + (DijkstraHeap net.outLinks cost r spFuel).label d *
            ((net.demand (r, d) : ℚ) : Lbl) := by
        unfold aonDestStep
        rw [if_neg h]
      rw [hstep, add_assoc]

/-- The loop over the destinations of one origin keeps the key list of
the flow dictionary. -/
theorem aonDest_fold_keys (net : Network) (cost : LinkId → ℚ)
    (spFuel tf : ℕ) (cx : Bool) (r : NodeId) :
    ∀ (ds : List NodeId) (acc : Lbl × LMap),
      ((ds.foldl (aonDestStep net cost spFuel tf cx r) acc).2).map Prod.fst =
        acc.2.map Prod.fst := by
  intro ds
  induction ds with
  | nil => intro acc; rfl
  | cons d ds ih =>
    intro acc
    rw [List.foldl_cons, ih]
    by_cases h : net.demand (r, d) ≤ 0
    · have hstep : aonDestStep net cost spFuel tf cx r acc d = acc := by
        unfold aonDestStep
        rw [if_pos h]
      rw [hstep]
    · have hstep : (aonDestStep net cost spFuel tf cx r acc d).2 =
          if cx ∧ r ≠ d then
            (tracePreds (DijkstraHeap net.outLinks cost r spFuel).pred tf
              d).foldl (fun m l => xbarAdd m l (net.demand (r, d))) acc.2
          else acc.2 := by
        unfold aonDestStep
        rw [if_neg h]
      rw [hstep]
      by_cases hcx : cx ∧ r ≠ d
      · rw [if_pos hcx, foldl_xbarAdd_keys]
      · rw [if_neg hcx]

/-- The flow component of the loop over the destinations of one origin:
each positive-demand, non-self destination adds its demand exactly once
to every present key on its traced route. -/
theorem aonDest_fold_snd (net : Network) (cost : LinkId → ℚ)
    (spFuel tf : ℕ) (r : NodeId)
    (hnd : ∀ d, (tracePreds (DijkstraHeap net.outLinks cost r spFuel).pred
      tf d).Nodup) :
    ∀ (ds : List NodeId) (acc : Lbl × LMap),
      acc.2.map Prod.fst = net.linkKeys →
      ∀ l ∈ net.linkKeys,
        lget ((ds.foldl (aonDestStep net cost spFuel tf true r) acc).2) l =
          lget acc.2 l + (ds.map fun d =>
            if 0 < net.demand (r, d) ∧ r ≠ d ∧
                l ∈ tracePreds (DijkstraHeap net.outLinks cost r spFuel).pred
                  tf d
              then net.demand (r, d) else 0).sum := by
  intro ds
  induction ds with
  | nil => intro acc _ l _; simp
  | cons d ds ih =>
    intro acc hkeys l hl
    rw [List.foldl_cons, List.map_cons, List.sum_cons]
    by_cases h : net.demand (r, d) ≤ 0
    · have hstep : aonDestStep net cost spFuel tf true r acc d = acc := by
        unfold aonDestStep
        rw [if_pos h]
      rw [hstep, ih acc hkeys l hl,
        if_neg (fun hc => absurd hc.1 (not_lt.mpr h)), zero_add]
    · by_cases hrd : r = d
      · have hstep : (aonDestStep net cost spFuel tf true r acc d).2 = acc.2 := by
          unfold aonDestStep
          rw [if_neg h]
          dsimp only
          rw [if_neg (fun hc => hc.2 hrd)]
        rw [ih (aonDestStep net cost spFuel tf true r acc d)
          (by rw [hstep]; exact hkeys) l hl, hstep,
          if_neg (fun hc => hc.2.1 hrd), zero_add]
      · have hstep : (aonDestStep net cost spFuel tf true r acc d).2 =
            (tracePreds (DijkstraHeap net.outLinks cost r spFuel).pred tf
              d).foldl (fun m x => xbarAdd m x (net.demand (r, d))) acc.2 := by
          unfold aonDestStep
          rw [if_neg h]
          dsimp only
          rw [if_pos ⟨rfl, hrd⟩]
        rw [ih (aonDestStep net cost spFuel tf true r acc d)
          (by rw [hstep, foldl_xbarAdd_keys]; exact hkeys) l hl, hstep,
          lget_foldl_xbarAdd acc.2 (hnd d) (by rw [hkeys]; exact hl), add_assoc]
        by_cases hT : l ∈ tracePreds
            (DijkstraHeap net.outLinks cost r spFuel).pred tf d
        · rw [if_pos hT, if_pos ⟨lt_of_not_le h, hrd, hT⟩]
        · rw [if_neg hT, if_neg (fun hc => hT hc.2.2)]

/-- The `SPTT` component of the loop over the origins. -/
theorem aonOrigin_fold_fst (net : Network) (cost : LinkId → ℚ)
    (spFuel tf : ℕ) (cx : Bool) :
    ∀ (os : List NodeId) (acc : Lbl × LMap),
      (os.foldl (aonOriginStep net cost spFuel tf cx) acc).1 =
        acc.1 + (os.map fun r => ((net.destList r).map fun d =>
          if 0 < net.demand (r, d) then
            (DijkstraHeap net.outLinks cost r spFuel).label d *
              ((net.demand (r, d) : ℚ) : Lbl)
          else 0).sum).sum := by
  intro os
  induction os with
  | nil => intro acc; simp
  | cons r os ih =>
    intro acc
    rw [List.foldl_cons, ih, List.map_cons, List.sum_cons]
    have hstep : (aonOriginStep net cost spFuel tf cx acc r).1 =
        acc.1 + ((net.destList r).map fun d =>
          if 0 < net.demand (r, d) then
            (DijkstraHeap net.outLinks cost r spFuel).label d *
              ((net.demand (r, d) : ℚ) : Lbl)
          else 0).sum := aonDest_fold_fst net cost spFuel tf cx r _ acc
    rw [hstep, add_assoc]

/-- The loop over the origins keeps the key list of the flow
dictionary. -/
theorem aonOrigin_fold_keys (net : Network) (cost : LinkId → ℚ)
    (spFuel tf : ℕ) (cx : Bool) :
    ∀ (os : List NodeId) (acc : Lbl × LMap),
      ((os.foldl (aonOriginStep net cost spFuel tf cx) acc).2).map Prod.fst =
        acc.2.map Prod.fst := by
  intro os
  induction os with
  | nil => intro acc; rfl
  | cons r os ih =>
    intro acc
    rw [List.foldl_cons, ih]
    exact aonDest_fold_keys net cost spFuel tf cx r _ acc

/-- The flow component of the loop over the origins. -/
theorem aonOrigin_fold_snd (net : Network) (cost : LinkId → ℚ)
    (spFuel tf : ℕ) :
    ∀ (os : List NodeId) (acc : Lbl × LMap),
      (∀ r ∈ os, ∀ d,
        (tracePreds (DijkstraHeap net.outLinks cost r spFuel).pred tf
          d).Nodup) →
      acc.2.map Prod.fst = net.linkKeys →
      ∀ l ∈ net.linkKeys,
        lget ((os.foldl (aonOriginStep net cost spFuel tf true) acc).2) l =
          lget acc.2 l + (os.map fun r => ((net.destList r).map fun d =>
            if 0 < net.demand (r, d) ∧ r ≠ d ∧
                l ∈ tracePreds (DijkstraHeap net.outLinks cost r spFuel).pred
                  tf d
              then net.demand (r, d) else 0).sum).sum := by
  intro os
  induction os with
  | nil => intro acc _ _ l _; simp
  | cons r os ih =>
    intro acc hnd hkeys l hl
    rw [List.foldl_cons, List.map_cons, List.sum_cons]
    have hstep2 : aonOriginStep net cost spFuel tf true acc r =
        (net.destList r).foldl (aonDestStep net cost spFuel tf true r) acc :=
      rfl
    have hkeys1 : (aonOriginStep net cost spFuel tf true acc r).2.map
        Prod.fst = net.linkKeys := by
      rw [hstep2, aonDest_fold_keys]
      exact hkeys
    rw [ih (aonOriginStep net cost spFuel tf true acc r)
      (fun x hx d => hnd x (List.mem_cons_of_mem r hx) d) hkeys1 l hl,
      hstep2,
      aonDest_fold_snd net cost spFuel tf r (hnd r (List.mem_cons_self r os))
        (net.destList r) acc hkeys l hl,
      add_assoc]

/-- A finite family of monotone properties has a uniform bound. -/
theorem exists_uniform_bound {γ : Type} (Q : γ → ℕ → Prop)
    (hmono : ∀ p n N, n ≤ N → Q p n → Q p N) :
    ∀ l : List γ, (∀ p ∈ l, ∃ n, Q p n) → ∃ N, ∀ p ∈ l, Q p N := by
  intro l
  induction l with
  | nil => intro _; exact ⟨0, fun p hp => absurd hp (List.not_mem_nil p)⟩
  | cons a l ih =>
    intro h
    obtain ⟨na, hna⟩ := h a (List.mem_cons_self a l)
    obtain ⟨N, hN⟩ := ih (fun p hp => h p (List.mem_cons_of_mem a hp))
    refine ⟨max na N, fun p hp => ?_⟩
    rcases List.mem_cons.mp hp with rfl | hp2
    · exact hmono p na _ (le_max_left na N) hna
    · exact hmono p N _ (le_max_right na N) (hN p hp2)

/-- After a terminated run, every trace is duplicate-free. -/
theorem dijkstra_trace_all_nodup {outL : NodeId → List NodeId}
    {cost : LinkId → ℚ} {origin : NodeId} {fuel : ℕ}
    (hcost : ∀ u v, v ∈ outL u → 0 ≤ cost (u, v))
    (hterm : (DijkstraHeap outL cost origin fuel).queue = []) :
    ∀ tf d, (tracePreds (DijkstraHeap outL cost origin fuel).pred tf
      d).Nodup := by
  obtain ⟨hc, _⟩ := dijkstra_final hcost hterm
  intro tf d
  by_cases hfin : (DijkstraHeap outL cost origin fuel).label d = ⊤
  · cases hp : (DijkstraHeap outL cost origin fuel).pred d with
    | none => rw [tracePreds_none hp]; exact List.nodup_nil
    | some u => exact absurd hfin (hc.predFin d u hp)
  · obtain ⟨n, hn⟩ := (hc.predReach d hfin).toN
    exact trace_nodup hc.predOrigin tf d n hn

/-- After a terminated run, every trace stabilizes in the fuel. -/
theorem dijkstra_trace_stable_exists {outL : NodeId → List NodeId}
    {cost : LinkId → ℚ} {origin : NodeId} {fuel : ℕ}
    (hcost : ∀ u v, v ∈ outL u → 0 ≤ cost (u, v))
    (hterm : (DijkstraHeap outL cost origin fuel).queue = []) :
    ∀ d, ∃ n, ∀ m, n ≤ m →
      tracePreds (DijkstraHeap outL cost origin fuel).pred m d =
        tracePreds (DijkstraHeap outL cost origin fuel).pred n d := by
  obtain ⟨hc, _⟩ := dijkstra_final hcost hterm
  intro d
  by_cases hfin : (DijkstraHeap outL cost origin fuel).label d = ⊤
  · cases hp : (DijkstraHeap outL cost origin fuel).pred d with
    | none =>
      exact ⟨0, fun m _ => by rw [tracePreds_none hp, tracePreds_none hp]⟩
    | some u => exact absurd hfin (hc.predFin d u hp)
  · obtain ⟨n, hn⟩ := (hc.predReach d hfin).toN
    exact ⟨n, fun m hm => tracePreds_stable hc.predOrigin hn m hm⟩

/-- Reading any key off the freshly zeroed flow dictionary. -/
theorem lget_const_zero (ks : List LinkId) (l : LinkId) :
    lget (ks.map fun k => (k, (0 : ℚ))) l = 0 := by
  induction ks with
  | nil => rfl
  | cons k ks ih =>
    rw [List.map_cons, lget_cons]
    by_cases h : l = k
    · rw [if_pos h]
    · rw [if_neg h]; exact ih

/-- C2: for every network with non-negative link costs whose per-origin
shortest-path runs terminate, `loadAON(network)` returns `SPTT` equal to
the sum over the positive-demand OD pairs of demand times the minimal
route cost (`μ` being any choice of those minimal costs), and a flow
vector `x_bar` in which, once the trace fuel covers the predecessor
chains, each network link carries exactly the sum of the demands of the
positive-demand OD pairs whose chosen shortest route `R` traverses that
link, all other links reading `0`; each `R (r, d)` of a reachable
positive-demand pair is a duplicate-free minimal-cost route from `r` to
`d`, and is empty for unreachable pairs. -/
theorem loadAON_characterization (net : Network) (cost : LinkId → ℚ)
    (spFuel : ℕ) (μ : NodeId × NodeId → Lbl)
    (hcost : ∀ u v, v ∈ net.outLinks u → 0 ≤ cost (u, v))
    (hterm : ∀ r ∈ net.origins,
      (DijkstraHeap net.outLinks cost r spFuel).queue = [])
    (hμ : ∀ r ∈ net.origins, ∀ d ∈ net.destList r, 0 < net.demand (r, d) →
      IsMinCost net.outLinks cost r d (μ (r, d))) :
    ∃ (N : ℕ) (R : NodeId × NodeId → List LinkId),
      (∀ r ∈ net.origins, ∀ d ∈ net.destList r, 0 < net.demand (r, d) →
        (R (r, d)).Nodup ∧
        (Reachable net.outLinks cost r d →
          ∃ k : ℚ, RouteCost net.outLinks cost r d (R (r, d)) k ∧
            μ (r, d) = (k : Lbl)) ∧
        (¬ Reachable net.outLinks cost r d → R (r, d) = [])) ∧
      ∀ tf, N ≤ tf →
        (loadAON net cost spFuel tf true).1 =
          (net.origins.map fun r => ((net.destList r).map fun d =>
            if 0 < net.demand (r, d) then
              μ (r, d) * ((net.demand (r, d) : ℚ) : Lbl)
            else 0).sum).sum ∧
        (∀ l ∈ net.linkKeys,
          lget (loadAON net cost spFuel tf true).2 l =
            (net.origins.map fun r => ((net.destList r).map fun d =>
              if 0 < net.demand (r, d) ∧ l ∈ R (r, d) then
                net.demand (r, d) else 0).sum).sum) ∧
        (∀ l, l ∉ net.linkKeys →
          lget (loadAON net cost spFuel tf true).2 l = 0) := by
  have hmono : ∀ (pr : NodeId → Option NodeId) (d : NodeId) (n N : ℕ),
      n ≤ N →
      (∀ m, n ≤ m → tracePreds pr m d = tracePreds pr n d) →
      (∀ m, N ≤ m → tracePreds pr m d = tracePreds pr N d) := by
    intro pr d n N hnN hst m hm
    rw [hst m (le_trans hnN hm), hst N hnN]
  have hQr : ∀ r ∈ net.origins, ∃ n, ∀ d ∈ net.destList r, ∀ m, n ≤ m →
      tracePreds (DijkstraHeap net.outLinks cost r spFuel).pred m d =
        tracePreds (DijkstraHeap net.outLinks cost r spFuel).pred n d := by
    intro r hr
    exact exists_uniform_bound
      (fun d n => ∀ m, n ≤ m →
        tracePreds (DijkstraHeap net.outLinks cost r spFuel).pred m d =
          tracePreds (DijkstraHeap net.outLinks cost r spFuel).pred n d)
      (fun d n N hnN h => hmono _ d n N hnN h)
      (net.destList r)
      (fun d _ => dijkstra_trace_stable_exists hcost (hterm r hr) d)
  obtain ⟨N, hstab⟩ := exists_uniform_bound
    (fun r n => ∀ d ∈ net.destList r, ∀ m, n ≤ m →
      tracePreds (DijkstraHeap net.outLinks cost r spFuel).pred m d =
        tracePreds (DijkstraHeap net.outLinks cost r spFuel).pred n d)
    (fun r n N hnN h d hd => hmono _ d n N hnN (h d hd))
    net.origins hQr
  refine ⟨N, fun p =>
    (tracePreds (DijkstraHeap net.outLinks cost p.1 spFuel).pred N
      p.2).reverse, ?_, ?_⟩
  · intro r hr d hd hdem
    dsimp only
    refine ⟨List.nodup_reverse.mpr
      (dijkstra_trace_all_nodup hcost (hterm r hr) N d), ?_, ?_⟩
    · intro hreach
      obtain ⟨n, k, hk, hall⟩ := dijkstra_trace hcost (hterm r hr) d hreach
      refine ⟨k, ?_, ?_⟩
      · have h1 := (hall (max n N) (le_max_left n N)).2.2
        have h2 := hstab r hr d hd (max n N) (le_max_right n N)
        rw [h2] at h1
        exact h1
      · rw [isMinCost_unique (hμ r hr d hd hdem)
          (dijkstra_minCost hcost (hterm r hr) d)]
        exact hk
    · intro hnr
      have h1 := dijkstra_unreachable hcost (hterm r hr) d hnr
      rw [tracePreds_none h1.2 N, List.reverse_nil]
  · intro tf htf
    have hinitkeys : ((net.linkKeys.map fun l2 => (l2, (0 : ℚ))) :
        LMap).map Prod.fst = net.linkKeys := by
      rw [List.map_map]
      exact List.map_id'' (fun _ => rfl) net.linkKeys
    refine ⟨?_, ?_, ?_⟩
    · rw [loadAON_eq, aonOrigin_fold_fst]
      have hz : ((((0 : ℚ) : Lbl),
          net.linkKeys.map fun l2 => (l2, (0 : ℚ))) : Lbl × LMap).1 =
          (0 : Lbl) := rfl
      rw [hz, zero_add]
      apply congrArg List.sum
      apply List.map_congr_left
      intro r hr
      apply congrArg List.sum
      apply List.map_congr_left
      intro d hd
      by_cases hdem : 0 < net.demand (r, d)
      · rw [if_pos hdem, if_pos hdem,
          isMinCost_unique (hμ r hr d hd hdem)
            (dijkstra_minCost hcost (hterm r hr) d)]
      · rw [if_neg hdem, if_neg hdem]
    · intro l hl
      rw [loadAON_eq,
        aonOrigin_fold_snd net cost spFuel tf net.origins
          (((0 : ℚ) : Lbl), net.linkKeys.map fun l2 => (l2, (0 : ℚ)))
          (fun r hr d => dijkstra_trace_all_nodup hcost (hterm r hr) tf d)
          hinitkeys l hl]
      have hz : lget ((((0 : ℚ) : Lbl),
          net.linkKeys.map fun l2 => (l2, (0 : ℚ))) : Lbl × LMap).2 l = 0 :=
        lget_const_zero net.linkKeys l
      rw [hz, zero_add]
      apply congrArg List.sum
      apply List.map_congr_left
      intro r hr
      apply congrArg List.sum
      apply List.map_congr_left
      intro d hd
      dsimp only
      by_cases hdem : 0 < net.demand (r, d)
      · by_cases hrd : r = d
        · subst hrd
          have hpr : (DijkstraHeap net.outLinks cost r spFuel).pred r =
              none := (dijkstra_final hcost (hterm r hr)).1.predOrigin
          have hR : (tracePreds (DijkstraHeap net.outLinks cost r
              spFuel).pred N r).reverse = ([] : List LinkId) := by
            rw [tracePreds_none hpr N, List.reverse_nil]
          rw [if_neg (fun hc => hc.2.1 rfl),
            if_neg (fun hc => by
              rw [hR] at hc
              exact absurd hc.2 (List.not_mem_nil l))]
        · have htr : tracePreds
              (DijkstraHeap net.outLinks cost r spFuel).pred tf d =
              tracePreds (DijkstraHeap net.outLinks cost r spFuel).pred N d :=
            hstab r hr d hd tf htf
          by_cases hmem : l ∈ tracePreds
              (DijkstraHeap net.outLinks cost r spFuel).pred N d
          · rw [if_pos ⟨hdem, hrd, by rw [htr]; exact hmem⟩,
              if_pos ⟨hdem, List.mem_reverse.mpr hmem⟩]
          · rw [if_neg (fun hc => hmem (htr ▸ hc.2.2)),
              if_neg (fun hc => hmem (List.mem_reverse.mp hc.2))]
      · rw [if_neg (fun hc => hdem hc.1), if_neg (fun hc => hdem hc.1)]
    · intro l hnl
      rw [loadAON_eq]
      apply lget_not_mem
      rw [aonOrigin_fold_keys]
      have hz : ((((0 : ℚ) : Lbl),
          net.linkKeys.map fun l2 => (l2, (0 : ℚ))) : Lbl × LMap).2.map
          Prod.fst = net.linkKeys := hinitkeys
      rw [hz]
      exact hnl

/-- Witness for C2 on the concrete seven-node network. -/
theorem loadAON_characterization_witness :
    ((∀ u v, v ∈ exNet.outLinks u → 0 ≤ exFft (u, v)) ∧
      (∀ r ∈ exNet.origins,
        (DijkstraHeap exNet.outLinks exFft r 50).queue = []) ∧
      (∀ r ∈ exNet.origins, ∀ d ∈ exNet.destList r,
        0 < exNet.demand (r, d) →
        IsMinCost exNet.outLinks exFft r d
          ((DijkstraHeap exNet.outLinks exFft r 50).label d))) ∧
    (∃ (N : ℕ) (R : NodeId × NodeId → List LinkId),
      (∀ r ∈ exNet.origins, ∀ d ∈ exNet.destList r,
        0 < exNet.demand (r, d) →
        (R (r, d)).Nodup ∧
        (Reachable exNet.outLinks exFft r d →
          ∃ k : ℚ, RouteCost exNet.outLinks exFft r d (R (r, d)) k ∧
            (DijkstraHeap exNet.outLinks exFft r 50).label d = (k : Lbl)) ∧
        (¬ Reachable exNet.outLinks exFft r d → R (r, d) = [])) ∧
      ∀ tf, N ≤ tf →
        (loadAON exNet exFft 50 tf true).1 =
          (exNet.origins.map fun r => ((exNet.destList r).map fun d =>
            if 0 < exNet.demand (r, d) then
              (DijkstraHeap exNet.outLinks exFft r 50).label d *
                ((exNet.demand (r, d) : ℚ) : Lbl)
            else 0).sum).sum ∧
        (∀ l ∈ exNet.linkKeys,
          lget (loadAON exNet exFft 50 tf true).2 l =
            (exNet.origins.map fun r => ((exNet.destList r).map fun d =>
              if 0 < exNet.demand (r, d) ∧ l ∈ R (r, d) then
                exNet.demand (r, d) else 0).sum).sum) ∧
        (∀ l, l ∉ exNet.linkKeys →
          lget (loadAON exNet exFft 50 tf true).2 l = 0)) := by
  have h1 : ∀ u v, v ∈ exNet.outLinks u → 0 ≤ exFft (u, v) := by
    intro u v _
    unfold exFft
    split_ifs <;> norm_num
  have h2 : ∀ r ∈ exNet.origins,
      (DijkstraHeap exNet.outLinks exFft r 50).queue = [] := by
    intro r hr
    fin_cases hr <;> decide
  have h3 : ∀ r ∈ exNet.origins, ∀ d ∈ exNet.destList r,
      0 < exNet.demand (r, d) →
      IsMinCost exNet.outLinks exFft r d
        ((DijkstraHeap exNet.outLinks exFft r 50).label d) :=
    fun r hr d _ _ => dijkstra_minCost h1 (h2 r hr) d
  exact ⟨⟨h1, h2, h3⟩,
    loadAON_characterization exNet exFft 50
      (fun p => (DijkstraHeap exNet.outLinks exFft p.1 50).label p.2)
      h1 h2 h3⟩
